import Mathlib

/-!
Verification development for the cgrr layout-description compiler and codec.

The embedding follows the package sources `src/cgrr/cgrr.py`,
`src/cgrr/parser.py` and `src/cgrr/offsets_parser.py`, plus the legacy
duplicate `src/cgrr.py` where a claim touches it.

Modelled from the spec: the elementary scalar pack/unpack facility (Python's
`struct` module) is an out-of-scope external collaborator (spec §1), assumed
to be "a standard pack fixed-size scalars according to a format string and
byte order library".  We model it with the standard-mode fixed sizes that the
package's format strings select (every compiled format string is prefixed
with one of `@ = < > !`; `<`, `=` and `@` are modelled as little-endian with
standard sizes — per the spec's fixed-width table in §3 — and `>`/`!` as
big-endian).  Float and double values are modelled by their raw bit patterns,
so the scalar float codec is bit-preserving.  Custom massage hooks are
modelled as total functions on values (the callable case of the source; an
object with `pack`/`unpack` methods is just another way of supplying such
functions).
-/

namespace Cgrr

/-- A runtime value handled by the codec: integers (`B b H h I i L l`),
booleans (`?`), byte strings (`c s p`) and floats/doubles by raw bit
pattern (`f d`). -/
inductive Value where
  | vint (n : Int)
  | vbool (b : Bool)
  | vbytes (bs : List Nat)
  | vf32 (bits : Nat)
  | vf64 (bits : Nat)
  deriving DecidableEq, Repr

/-- Error classes raised by the compiler and codec (Python exception
classes collapsed to their role). -/
inductive Err where
  | lengthMismatch
  | missingField (name : String)
  | arityMismatch
  | typeError
  | syntaxError
  | indexError
  | valueError
  deriving DecidableEq, Repr

/-- A size-and-type code, the structured form of a fragment string such as
`"16s"` (count `some 16`, tag `'s'`) or `"I"` (count `none`, tag `'I'`). -/
structure Frag where
  count : Option Nat
  tag : Char
  deriving DecidableEq, Repr

/-- The fragment string `str(count) + tag` stored in the format dict
(`p_builtin_variable` / `p_userdef_variable` in src/cgrr/parser.py). -/
def Frag.code (f : Frag) : String :=
  (match f.count with
   | none => ""
   | some n => toString n) ++ String.singleton f.tag

/-- The effective repeat count (absent count defaults to 1, as in struct). -/
def Frag.cnt (f : Frag) : Nat := f.count.getD 1

/-! ## Byte-level integer encoding (scalar facility, modelled from the spec) -/

/-- Little-endian bytes of `n`, exactly `w` bytes. -/
def leBytes : Nat → Nat → List Nat
  | 0, _ => []
  | w + 1, n => n % 256 :: leBytes w (n / 256)

/-- The natural number denoted by a little-endian byte list. -/
def natOfLE : List Nat → Nat
  | [] => 0
  | b :: bs => b + 256 * natOfLE bs

/-- Endianness-dispatching byte serialisation of width `w`. -/
def ordBytes (be : Bool) (w : Nat) (n : Nat) : List Nat :=
  if be then (leBytes w n).reverse else leBytes w n

/-- Endianness-dispatching byte deserialisation. -/
def natOfSlice (be : Bool) (bs : List Nat) : Nat :=
  if be then natOfLE bs.reverse else natOfLE bs

/-- Standard-mode element width of a scalar type tag.  Note that under the
standard (non-native) modes struct gives `L`/`l` four bytes. -/
def elemWidth : Char → Nat
  | 'B' => 1
  | 'b' => 1
  | 'c' => 1
  | '?' => 1
  | 'H' => 2
  | 'h' => 2
  | 'I' => 4
  | 'i' => 4
  | 'L' => 4
  | 'l' => 4
  | 'f' => 4
  | 'd' => 8
  | _ => 0

/-- Integer element tags. -/
def isIntTag (t : Char) : Bool :=
  t == 'B' || t == 'b' || t == 'H' || t == 'h' ||
  t == 'I' || t == 'i' || t == 'L' || t == 'l'

/-- Signed integer element tags. -/
def tagSigned : Char → Bool
  | 'b' => true
  | 'h' => true
  | 'i' => true
  | 'l' => true
  | _ => false

/-- Interpret a `w`-byte unsigned accumulation as a (possibly signed)
integer value, two's complement. -/
def decodeInt (signed : Bool) (w : Nat) (u : Nat) : Int :=
  if signed && decide (2 ^ (8 * w - 1) ≤ u) then (u : Int) - 2 ^ (8 * w) else (u : Int)

/-- The range check struct performs before packing an integer. -/
def intInRange (signed : Bool) (w : Nat) (n : Int) : Bool :=
  if signed then
    decide (-(2 ^ (8 * w - 1) : Int) ≤ n ∧ n < 2 ^ (8 * w - 1))
  else
    decide (0 ≤ n ∧ n < 2 ^ (8 * w))

/-- Pack an integer into its `w`-byte two's-complement accumulation;
out-of-range values are rejected (struct.error). -/
def encodeInt (signed : Bool) (w : Nat) (n : Int) : Option Nat :=
  if intInRange signed w n then some (n % ((2 : Int) ^ (8 * w))).toNat else none

/-- Unpack one scalar element from its byte slice. -/
def unpackElem (be : Bool) (t : Char) (slice : List Nat) : Value :=
  match t with
  | '?' => .vbool (natOfSlice be slice != 0)
  | 'c' => .vbytes slice
  | 'f' => .vf32 (natOfSlice be slice)
  | 'd' => .vf64 (natOfSlice be slice)
  | t => .vint (decodeInt (tagSigned t) (elemWidth t) (natOfSlice be slice))

/-- Pack one scalar element; `none` is a struct type/range error. -/
def packElem (be : Bool) (t : Char) (v : Value) : Option (List Nat) :=
  match t, v with
  | '?', .vbool b => some [cond b 1 0]
  | 'c', .vbytes bs => if bs.length = 1 then some bs else none
  | 'f', .vf32 bits => if bits < 256 ^ 4 then some (ordBytes be 4 bits) else none
  | 'd', .vf64 bits => if bits < 256 ^ 8 then some (ordBytes be 8 bits) else none
  | t, .vint n =>
      if isIntTag t then (encodeInt (tagSigned t) (elemWidth t) n).map (ordBytes be (elemWidth t))
      else none
  | _, _ => none

/-! ## Field-level scalar facility -/

/-- Byte size of one field, `struct.calcsize` of its fragment. -/
def fragSize (f : Frag) : Nat :=
  if f.tag = 'x' ∨ f.tag = 's' ∨ f.tag = 'p' then f.cnt else f.cnt * elemWidth f.tag

/-- Number of unpacked values a field contributes: padding none, strings
one, scalars one per repetition. -/
def fragValueCount (f : Frag) : Nat :=
  if f.tag = 'x' then 0 else if f.tag = 's' ∨ f.tag = 'p' then 1 else f.cnt

/-- Unpack `k` scalar repetitions of tag `t` from the front of `data`. -/
def unpackReps (be : Bool) (t : Char) : Nat → List Nat → List Value
  | 0, _ => []
  | k + 1, data =>
      unpackElem be t (data.take (elemWidth t)) :: unpackReps be t k (data.drop (elemWidth t))

/-- The pascal-string payload of a `c`-byte slice: first byte is the stored
length, the value is the following `min stored (c-1)` bytes. -/
def unpackPascal (c : Nat) (bs : List Nat) : List Nat :=
  match bs with
  | [] => []
  | l :: rest => rest.take (min l (c - 1))

/-- Values a single field yields from its byte slice (the slice is exactly
`fragSize` bytes, cut by the caller). -/
def fieldValues (be : Bool) (f : Frag) (slice : List Nat) : List Value :=
  if f.tag = 'x' then []
  else if f.tag = 's' then [.vbytes slice]
  else if f.tag = 'p' then [.vbytes (unpackPascal f.cnt slice)]
  else unpackReps be f.tag f.cnt slice

/-- Unpack a whole format: each field consumes its `fragSize` bytes. -/
def unpackFields (be : Bool) : List Frag → List Nat → List Value
  | [], _ => []
  | f :: fs, data =>
      fieldValues be f (data.take (fragSize f)) ++ unpackFields be fs (data.drop (fragSize f))

/-- struct's `s`-packing: truncate or zero-pad the payload to exactly `c`
bytes ("the string is truncated or padded with null bytes as appropriate"). -/
def padTo (c : Nat) (bs : List Nat) : List Nat :=
  bs.take c ++ List.replicate (c - bs.length) 0

/-- struct's `p`-packing: length byte `min (min |bs| (c-1)) 255`, then the
payload truncated to that length, zero-filled to `c` bytes in total. -/
def packPascal (c : Nat) (bs : List Nat) : List Nat :=
  ((min (min bs.length (c - 1)) 255 :: bs.take (min (min bs.length (c - 1)) 255)) ++
    List.replicate (c - 1 - min (min bs.length (c - 1)) 255) 0).take c

/-- Pack a homogeneous list of scalar elements. -/
def packList (be : Bool) (t : Char) : List Value → Option (List Nat)
  | [] => some []
  | v :: vs => do
      let b ← packElem be t v
      let r ← packList be t vs
      pure (b ++ r)

/-- Pack the values of one field (the caller hands exactly
`fragValueCount` values). -/
def packFieldVals (be : Bool) (f : Frag) (vs : List Value) : Option (List Nat) :=
  if f.tag = 'x' then
    match vs with
    | [] => some (List.replicate f.cnt 0)
    | _ => none
  else if f.tag = 's' then
    match vs with
    | [.vbytes bs] => some (padTo f.cnt bs)
    | _ => none
  else if f.tag = 'p' then
    match vs with
    | [.vbytes bs] => some (packPascal f.cnt bs)
    | _ => none
  else if vs.length = f.cnt then packList be f.tag vs
  else none

/-- Total byte size of a format, `struct.calcsize`. -/
def sizeFields (fs : List Frag) : Nat := (fs.map fragSize).sum

/-- Total number of values a format packs/unpacks. -/
def countFields (fs : List Frag) : Nat := (fs.map fragValueCount).sum

/-- Pack a whole format against a value list. -/
def packFields (be : Bool) : List Frag → List Value → Option (List Nat)
  | [], _ => some []
  | f :: fs, vs => do
      let b ← packFieldVals be f (vs.take (fragValueCount f))
      let r ← packFields be fs (vs.drop (fragValueCount f))
      pure (b ++ r)

/-- Big-endian byte-order markers; all others select little-endian in this
model (see the header note on `@`/`=`). -/
def isBE (bo : Char) : Bool := bo = '>' || bo = '!'

/-- `Struct.unpack`: a buffer of the wrong total length fails with the
length-mismatch error before any data is touched; a correct-length buffer
is decoded field by field. -/
def structUnpack (bo : Char) (fs : List Frag) (data : List Nat) : Except Err (List Value) :=
  if data.length = sizeFields fs then .ok (unpackFields (isBE bo) fs data)
  else .error .lengthMismatch

/-- `Struct.pack`: the argument count is checked up front ("pack expected N
items"); element type/range errors surface afterwards. -/
def structPack (bo : Char) (fs : List Frag) (vals : List Value) : Except Err (List Nat) :=
  if vals.length = countFields fs then
    match packFields (isBE bo) fs vals with
    | some bs => .ok bs
    | none => .error .typeError
  else .error .arityMismatch

/-! ## The codec object (`FileReader` runtime state) -/

/-- A massage hook (`parse_TYPE` / `unparse_TYPE` function, or a
`massage_in`/`massage_out` entry). -/
abbrev Hook := Value → Value

/-- The identity transform used when a hook is not defined
(`gs.get('parse_' + r[0], lambda x: x)`). -/
def idHook : Hook := fun v => v

/-- The compiled reader: `format` is the ordered name-to-fragment dict,
`byte_order` the attribute set from the source text, `struct_bo` the byte
order actually bound into the `struct.Struct` (its `fmt` prefix — in the
package module the two agree; the legacy root module diverges), `fmt` the
stored format string. -/
structure Reader where
  byte_order : Char
  struct_bo : Char
  format : List (String × Frag)
  fmt : String
  massage_in : List (String × Hook)
  massage_out : List (String × Hook)

/-- `x[:7] != 'padding'` filter from `unpack`/`pack`: a name is a padding
name when its first seven characters are exactly `padding`. -/
def isPadName (n : String) : Bool := (n.toList.take 7).asString = "padding"

/-- The non-padding field names, in field order — the keys `unpack` returns
and `pack` requires. -/
def reqKeys (r : Reader) : List String :=
  (r.format.map (fun kv => kv.1)).filter (fun n => !isPadName n)

/-- The hook registered for a key, identity when none is. -/
def hookAt (hs : List (String × Hook)) (k : String) : Hook :=
  match hs.find? (fun p => p.1 == k) with
  | some p => p.2
  | none => idHook

/-- Apply a hook table pointwise to a mapping (`for k in dictionary: ...`). -/
def applyHooks (hs : List (String × Hook)) (m : List (String × Value)) :
    List (String × Value) :=
  m.map (fun kv => (kv.1, hookAt hs kv.1 kv.2))

/-- `FileReader.unpack`: struct-unpack, zip the filtered names with the
values, then massage in place when `massage_in` is non-empty. -/
def Reader.unpack (r : Reader) (data : List Nat) : Except Err (List (String × Value)) := do
  let vals ← structUnpack r.struct_bo (r.format.map (fun kv => kv.2)) data
  let dict := (reqKeys r).zip vals
  .ok (if r.massage_in.isEmpty then dict else applyHooks r.massage_in dict)

/-- The per-key lookup loop of `pack`'s value-list comprehension; a missing
required key is the missing-field (KeyError) failure. -/
def getVals (out : List (String × Value)) : List String → Except Err (List Value)
  | [] => .ok []
  | k :: ks =>
      match out.find? (fun p => p.1 == k) with
      | some kv => do
          let rest ← getVals out ks
          .ok (kv.2 :: rest)
      | none => .error (.missingField k)

/-- `FileReader.pack`: massage out (when the table is non-empty), gather one
value per required field, struct-pack. -/
def Reader.pack (r : Reader) (m : List (String × Value)) : Except Err (List Nat) := do
  let out := if r.massage_out.isEmpty then m else applyHooks r.massage_out m
  let vals ← getVals out (reqKeys r)
  structPack r.struct_bo (r.format.map (fun kv => kv.2)) vals

/-! ## Plain-DSL lexer and grammar (src/cgrr/parser.py) -/

/-- One token of the field grammar. -/
inductive Tok where
  | bo (c : Char)
  | builtin (tag : Char)
  | name (s : String)
  | count (n : Nat)
  deriving DecidableEq, Repr

/-- The `builtin_dict` keywords in the alternation order of the `t_BUILTIN`
regex (`unknown|padding|U?int(?:8|16|32|64)|float|double|bool|char|string|`
`pascal_string` — the width alternatives try 8, 16, 32, 64 in order). -/
def builtinKeys : List (String × Char) :=
  [("unknown", 's'), ("padding", 'x'),
   ("Uint8", 'B'), ("Uint16", 'H'), ("Uint32", 'I'), ("Uint64", 'L'),
   ("int8", 'b'), ("int16", 'h'), ("int32", 'i'), ("int64", 'l'),
   ("float", 'f'), ("double", 'd'), ("bool", '?'), ("char", 'c'),
   ("string", 's'), ("pascal_string", 'p')]

/-- Regex-style prefix match of a builtin keyword at the current position. -/
def matchBuiltin (cs : List Char) : Option (Char × List Char) :=
  (builtinKeys.find? (fun p => p.1.toList.isPrefixOf cs)).map
    (fun p => (p.2, cs.drop p.1.length))

def isNameStart (c : Char) : Bool := c.isAlpha || c == '_'

def isNameChar (c : Char) : Bool := c.isAlphanum || c == '_'

def digitsToNat (ds : List Char) : Nat :=
  ds.foldl (fun a c => 10 * a + (c.toNat - 48)) 0

/-- The ply lexer for one (already stripped) line: ignore spaces/tabs, try
the function rules `t_BUILTIN` and `t_COUNT`, then `t_NAME`, `t_BYTE_ORDER`
and the comment rule, in ply's ordering.  `fuel` only bounds recursion; the
caller passes `length + 1`, enough since every step consumes a character. -/
def lexPlainGo : Nat → List Char → Except Err (List Tok)
  | 0, _ => .error .valueError
  | _ + 1, [] => .ok []
  | fuel + 1, c :: cs =>
      if c == ' ' || c == '\t' then lexPlainGo fuel cs
      else
        match matchBuiltin (c :: cs) with
        | some (tag, rest) => do
            let ts ← lexPlainGo fuel rest
            .ok (.builtin tag :: ts)
        | none =>
            if c == '[' then
              let ds := cs.takeWhile Char.isDigit
              match ds, cs.dropWhile Char.isDigit with
              | _ :: _, ']' :: rest2 => do
                  let ts ← lexPlainGo fuel rest2
                  .ok (.count (digitsToNat ds) :: ts)
              | _, _ => .error .valueError
            else if isNameStart c then do
              let ts ← lexPlainGo fuel (cs.dropWhile isNameChar)
              .ok (.name (c :: cs.takeWhile isNameChar).asString :: ts)
            else if c == '@' || c == '=' || c == '<' || c == '>' || c == '!' then do
              let ts ← lexPlainGo fuel cs
              .ok (.bo c :: ts)
            else if c == '#' then .ok []
            else .error .valueError

/-- Parse result of one line, mirroring the Python tuples: `pair t (n, f)`
is `(t, (name, frag))` with `t` either the literal `"_BUILTIN"` or a
user-defined type name; `bo c` is `('_BYTE_ORDER', c)`. -/
inductive PRes where
  | pair (t : String) (nv : String × Frag)
  | bo (c : Char)
  deriving Repr

/-- The yacc grammar: exactly the five statement shapes, everything else is
a syntax error. -/
def parseToks : List Tok → Except Err PRes
  | [.bo c] => .ok (.bo c)
  | [.builtin t, .name n] => .ok (.pair "_BUILTIN" (n, ⟨none, t⟩))
  | [.builtin t, .count k, .name n] => .ok (.pair "_BUILTIN" (n, ⟨some k, t⟩))
  | [.name t, .name n] => .ok (.pair t (n, ⟨none, 's'⟩))
  | [.name t, .count k, .name n] => .ok (.pair t (n, ⟨some k, 's'⟩))
  | _ => .error .syntaxError

/-- `cgrr_parser.parse(line, lexer=cgrr_lexer)`. -/
def parsePlainLine (s : String) : Except Err PRes := do
  let ts ← lexPlainGo (s.length + 1) s.toList
  parseToks ts

/-! ## Direct compilation (`FileReader.__init__`, string path) -/

/-- Python whitespace for `str.strip`/`str.split`. -/
def isPySpace (c : Char) : Bool :=
  c == ' ' || c == '\t' || c == '\n' || c == '\r' || c == '\x0b' || c == '\x0c'

/-- `str.strip()`. -/
def pyStrip (s : String) : String :=
  (((s.toList.dropWhile isPySpace).reverse.dropWhile isPySpace).reverse).asString

/-- Separator split at the character level (`str.split(sep)` with a
one-character separator: n separators yield n+1 pieces, empties kept). -/
def splitCharGo (sep : Char) : List Char → List Char → List String
  | [], acc => [acc.reverse.asString]
  | c :: cs, acc =>
      if c = sep then acc.reverse.asString :: splitCharGo sep cs []
      else splitCharGo sep cs (c :: acc)

/-- `str.splitlines()` (newline-separated; a trailing newline yields a final
empty piece here, which the compiler skips as blank anyway). -/
def splitLines (s : String) : List String := splitCharGo '\n' s.toList []

/-- Ordered-dict insertion: a repeated key updates the stored value in
place, a new key is appended. -/
def odInsert {α : Type} (l : List (String × α)) (k : String) (v : α) :
    List (String × α) :=
  if l.any (fun p => p.1 == k) then l.map (fun p => if p.1 == k then (k, v) else p)
  else l ++ [(k, v)]

/-- Build an `OrderedDict` from an association list. -/
def orderedDict {α : Type} (l : List (String × α)) : List (String × α) :=
  l.foldl (fun acc kv => odInsert acc kv.1 kv.2) []

/-- Mutable state of the `__init__` parsing loop. -/
structure CompSt where
  f : List (String × Frag)
  massage_in : List (String × Hook)
  massage_out : List (String × Hook)
  byte_order : Char

/-- One loop iteration of `__init__` over a non-blank stripped line.  The
environment `env` models the caller's globals `gs`; hooks are resolved by
`gs.get('parse_' + t, identity)` / `gs.get('unparse_' + t, identity)`.
A user-defined type literally named `_BYTE_ORDER` would make Python assign a
tuple to `self.byte_order` and crash later when building `fmt`; we surface
that as an immediate type error. -/
def compileLine (env : String → Option Hook) (st : CompSt) (line : String) :
    Except Err CompSt := do
  let r ← parsePlainLine line
  match r with
  | .pair "_BUILTIN" nv => .ok { st with f := st.f ++ [nv] }
  | .bo c => .ok { st with byte_order := c }
  | .pair "_BYTE_ORDER" _ => .error .typeError
  | .pair t nv =>
      .ok { st with
        f := st.f ++ [nv]
        massage_in := odInsert st.massage_in nv.1 ((env ("parse_" ++ t)).getD idHook)
        massage_out := odInsert st.massage_out nv.1 ((env ("unparse_" ++ t)).getD idHook) }

/-- The `for line in format.splitlines()` loop of the package `__init__`:
blank lines (after stripping) are skipped, others are stripped and parsed. -/
def compileLinesGo (env : String → Option Hook) :
    List String → CompSt → Except Err CompSt
  | [], st => .ok st
  | l :: ls, st =>
      if pyStrip l = "" then compileLinesGo env ls st
      else do
        let st' ← compileLinesGo env ls (← compileLine env st (pyStrip l))
        .ok st'

/-- Assemble the reader from the finished loop state.  `structBO` is the
character actually prefixed to `fmt` (the parsed byte order in the package
module, the constructor argument in the legacy root module). -/
def mkReader (st : CompSt) (structBO : Char) : Reader :=
  let format := orderedDict st.f
  { byte_order := st.byte_order
    struct_bo := structBO
    format := format
    fmt := String.singleton structBO ++ String.join (format.map (fun kv => kv.2.code))
    massage_in := st.massage_in
    massage_out := st.massage_out }

/-- `FileReader(format)` for a string format, package module
(src/cgrr/cgrr.py lines 122-145): the parsed `self.byte_order` prefixes
`self.fmt`. -/
def compileString (src : String) (env : String → Option Hook) : Except Err Reader := do
  let st ← compileLinesGo env (splitLines src) ⟨[], [], [], '<'⟩
  .ok (mkReader st st.byte_order)

/-- The legacy root module's yacc grammar (src/cgrr.py lines 82-108): it
defines no `p_statement` rule and no `start` symbol, so ply takes the first
rule's left-hand side — `variable`, from `p_builtin_variable` — as the
start symbol, and the `byte_order : BYTE_ORDER` production of `p_byteorder`
is unreachable (ply only warns about the unused rule).  Only the four
variable shapes parse; anything else, a bare byte-order line included,
reaches `p_error`, which raises `ValueError`. -/
def parseLegacyToks : List Tok → Except Err PRes
  | [.builtin t, .name n] => .ok (.pair "_BUILTIN" (n, ⟨none, t⟩))
  | [.builtin t, .count k, .name n] => .ok (.pair "_BUILTIN" (n, ⟨some k, t⟩))
  | [.name t, .name n] => .ok (.pair t (n, ⟨none, 's'⟩))
  | [.name t, .count k, .name n] => .ok (.pair t (n, ⟨some k, 's'⟩))
  | _ => .error .valueError

/-- `parser.parse(line)` in the legacy root module (same token rules as the
package lexer, legacy start symbol). -/
def parseLegacyLine (s : String) : Except Err PRes := do
  let ts ← lexPlainGo (s.length + 1) s.toList
  parseLegacyToks ts

/-- One iteration of the legacy `__init__` loop body (src/cgrr.py lines
213-226).  The `.bo` branch mirrors the `r[0] == '_BYTE_ORDER'` test of
line 223-224, but `parseLegacyToks` can never produce it — that assignment
is dead code.  A user-defined type literally named `_BYTE_ORDER` also lands
in that test: Python then stores the parse tuple in `self.byte_order` and
does nothing else; the junk attribute value is outside this Char-typed
state, and since nothing in the legacy module reads `self.byte_order`
afterwards, the model keeps the rest of the state unchanged and the
previous byte-order character in place. -/
def legacyCompileLine (env : String → Option Hook) (st : CompSt) (line : String) :
    Except Err CompSt := do
  let r ← parseLegacyLine line
  match r with
  | .pair "_BUILTIN" nv => .ok { st with f := st.f ++ [nv] }
  | .bo c => .ok { st with byte_order := c }
  | .pair "_BYTE_ORDER" _ => .ok st
  | .pair t nv =>
      .ok { st with
        f := st.f ++ [nv]
        massage_in := odInsert st.massage_in nv.1 ((env ("parse_" ++ t)).getD idHook)
        massage_out := odInsert st.massage_out nv.1 ((env ("unparse_" ++ t)).getD idHook) }

/-- The loop of the legacy root module `src/cgrr.py` (lines 211-226): only
exactly-empty lines are skipped and lines are parsed unstripped (the lexer
ignores the surrounding blanks anyway; an all-blank or comment-only line is
a parse error there). -/
def legacyLinesGo (env : String → Option Hook) :
    List String → CompSt → Except Err CompSt
  | [], st => .ok st
  | l :: ls, st =>
      if l = "" then legacyLinesGo env ls st
      else do
        let st' ← legacyLinesGo env ls (← legacyCompileLine env st l)
        .ok st'

/-- `FileReader(format, byte_order=boArg)` in the legacy root module
`src/cgrr.py`: line 225 builds `self.fmt` from the **constructor argument**
`byte_order`, not from the parsed `self.byte_order` — though with the
legacy grammar the parsed byte order can never change from its default
anyway, byte-order statement lines being syntax errors there. -/
def legacyCompile (src : String) (env : String → Option Hook) (boArg : Char) :
    Except Err Reader := do
  let st ← legacyLinesGo env (splitLines src) ⟨[], [], [], '<'⟩
  .ok (mkReader st boArg)

/-! ## Offset-DSL lexer and grammar (src/cgrr/offsets_parser.py) -/

/-- One token of the offset grammar. -/
inductive OTok where
  | obo (c : Char)
  | ooff (n : Nat)
  | oplain (s : String)
  deriving DecidableEq, Repr

def isHexChar (c : Char) : Bool :=
  c.isDigit || ('a' ≤ c && c ≤ 'f') || ('A' ≤ c && c ≤ 'F')

def hexCharVal (c : Char) : Nat :=
  if c.isDigit then c.toNat - 48
  else if 'a' ≤ c && c ≤ 'f' then c.toNat - 87
  else c.toNat - 55

def hexToNat (ds : List Char) : Nat :=
  ds.foldl (fun a c => 16 * a + hexCharVal c) 0

/-- The `t_OFFSET` rule `0x[0-9A-Fa-f]+` (the docstring regex is compiled
with re.VERBOSE, so its whitespace is not part of the pattern). -/
def matchOffset : List Char → Option (Nat × List Char)
  | '0' :: 'x' :: rest =>
      match rest.takeWhile isHexChar with
      | [] => none
      | ds => some (hexToNat ds, rest.dropWhile isHexChar)
  | _ => none

/-- The offsets lexer for one stripped line: skip blanks, try `t_OFFSET`
(function rule), then `t_BYTE_ORDER`, the comment rule, and finally
`t_PLAIN_STATEMENT` (`.+`), which swallows the whole rest of the line. -/
def lexOffGo : Nat → List Char → Except Err (List OTok)
  | 0, _ => .error .valueError
  | _ + 1, [] => .ok []
  | fuel + 1, c :: cs =>
      if c == ' ' || c == '\t' then lexOffGo fuel cs
      else
        match matchOffset (c :: cs) with
        | some (n, rest) => do
            let ts ← lexOffGo fuel rest
            .ok (.ooff n :: ts)
        | none =>
            if c == '@' || c == '=' || c == '<' || c == '>' || c == '!' then do
              let ts ← lexOffGo fuel cs
              .ok (.obo c :: ts)
            else if c == '#' then .ok []
            else .ok [.oplain (c :: cs).asString]

/-- Offset-grammar parse results: `(None, byte-order-char)` or
`(offset, remainder-text)`. -/
inductive ORes where
  | obo (c : Char)
  | ostmt (off : Nat) (txt : String)
  deriving DecidableEq, Repr

def parseOffToks : List OTok → Except Err ORes
  | [.obo c] => .ok (.obo c)
  | [.ooff n, .oplain s] => .ok (.ostmt n s)
  | _ => .error .syntaxError

/-- `offsets_parser.parse(line, lexer=offsets_lexer)`. -/
def parseOffLine (s : String) : Except Err ORes := do
  let ts ← lexOffGo (s.length + 1) s.toList
  parseOffToks ts

/-! ## Offset-gap compilation (`FileReader.from_offsets`) -/

/-- `str.split(maxsplit=2)`: at most three parts, the third kept verbatim
after skipping its leading whitespace run. -/
def pySplit2 (s : String) : List String :=
  let cs := s.toList.dropWhile isPySpace
  match cs with
  | [] => []
  | _ =>
      let t1 := cs.takeWhile (fun c => !isPySpace c)
      let r1 := (cs.dropWhile (fun c => !isPySpace c)).dropWhile isPySpace
      match r1 with
      | [] => [t1.asString]
      | _ =>
          let t2 := r1.takeWhile (fun c => !isPySpace c)
          let r2 := (r1.dropWhile (fun c => !isPySpace c)).dropWhile isPySpace
          match r2 with
          | [] => [t1.asString, t2.asString]
          | _ => [t1.asString, t2.asString, r2.asString]

/-- The hex digit string of `n` (lowercase, no prefix): `hex(n)` minus the
leading `0x`. -/
def hexDigitsStr (n : Nat) : String := (Nat.toDigits 16 n).asString

/-- `len(hex(n)) - 2`, the `max_offset_width` computation. -/
def pyHexLen (n : Nat) : Nat := (hexDigitsStr n).length

/-- `'{:0{mow}x}'.format(n)`: zero-padded lowercase hex. -/
def hexPad (mow : Nat) (n : Nat) : String :=
  let s := hexDigitsStr n
  (List.replicate (mow - s.length) '0').asString ++ s

/-- The `'# 0x{start:0{mow}x}-0x{end:0{mow}x}'` byte-range comment. -/
def posComment (mow a b : Nat) : String :=
  "# 0x" ++ hexPad mow a ++ "-0x" ++ hexPad mow b

/-- Python tuple comparison `(off, txt) <= (off', txt')`, lexicographic. -/
def stmtLE (a b : Nat × String) : Bool :=
  a.1 < b.1 || (a.1 == b.1 && a.2 ≤ b.2)

/-- Stable insertion for `list.sort()` (equal elements keep source order). -/
def pyInsert (x : Nat × String) : List (Nat × String) → List (Nat × String)
  | [] => [x]
  | y :: ys => if stmtLE x y then x :: y :: ys else y :: pyInsert x ys

/-- `statements.sort()`: a stable sort under the lexicographic tuple order. -/
def pySort (l : List (Nat × String)) : List (Nat × String) :=
  l.foldr pyInsert []

/-- The synthesized filler line for a gap of `off - pos` bytes
(`unknown[gap] unkN  # range`). -/
def gapLine (mow pos off unknowns : Nat) : String × String × String :=
  ("unknown[" ++ toString (off - pos) ++ "]", "unk" ++ toString unknowns,
   posComment mow pos (off - 1))

/-- The walk over the sorted statements: synthesize a gap filler when the
next offset is ahead of the cursor, stop at the `EOF` sentinel, otherwise
re-parse the remainder text with the field grammar and size it, annotate
with the byte-range comment, and advance the cursor. -/
def walkStmts (mow : Nat) : List (Nat × String) → Nat → Nat →
    Except Err (List (String × String × String))
  | [], _, _ => .ok []
  | (off, txt) :: rest, pos, unk =>
      let gap := pos < off
      let pos' := if gap then off else pos
      let unk' := if gap then unk + 1 else unk
      let gl := if gap then [gapLine mow pos off (unk + 1)] else []
      if pyStrip txt = "EOF" then .ok gl
      else do
        let r ← parsePlainLine txt
        let frag ← (match r with
                    | .pair _ nv => .ok nv.2
                    | .bo _ => .error .indexError)
        let sz := fragSize frag
        let cm := posComment mow pos' (pos' + sz - 1)
        let triple ← (match pySplit2 txt with
                      | [a, b] => .ok (a, b, cm)
                      | [a, b, c0] => .ok (a, b, cm ++ ": " ++ pyStrip ((c0.toList.drop 1).asString))
                      | _ => .error .indexError)
        let tail ← walkStmts mow rest (pos' + sz) unk'
        .ok (gl ++ triple :: tail)

/-- `'{:<w}'.format(s)`: left-justify by space padding. -/
def padRight (s : String) (w : Nat) : String :=
  s ++ (List.replicate (w - s.length) ' ').asString

/-- Rebuild the synthetic plain-DSL source and compile it, from the header
(byte-order line) and the collected `(offset, remainder)` statements.  The
final `cls(new_format)` call runs with the cgrr module's own globals, which
define no `parse_*`/`unparse_*` functions, hence the empty environment. -/
def fromOffsetsCore (header : String) (stmts : List (Nat × String)) :
    Except Err Reader := do
  match stmts with
  | [] => .error .indexError
  | _ =>
      let sorted := pySort stmts
      let mow := pyHexLen ((sorted.getLast?).getD (0, "")).1
      let lines ← walkStmts mow sorted 0 0
      match lines with
      | [] => .error .valueError
      | _ =>
          let maxLeft := (lines.map (fun l => l.1.length)).foldl Nat.max 0
          let maxMid := (lines.map (fun l => l.2.1.length)).foldl Nat.max 0
          let text := lines.foldl
            (fun acc l =>
              acc ++ padRight l.1 maxLeft ++ " " ++ padRight l.2.1 maxMid ++ " "
                ++ l.2.2 ++ "\n")
            header
          compileString text (fun _ => none)

/-- The line-collection loop of `from_offsets`: blank lines skipped, a
byte-order line replaces the pending header, statements are collected in
source order. -/
def collectOff : List String → String × List (Nat × String) →
    Except Err (String × List (Nat × String))
  | [], acc => .ok acc
  | l :: ls, (hdr, st) =>
      if pyStrip l = "" then collectOff ls (hdr, st)
      else do
        let r ← parseOffLine (pyStrip l)
        match r with
        | .obo c => collectOff ls (String.singleton c ++ "\n", st)
        | .ostmt n t => collectOff ls (hdr, st ++ [(n, t)])

/-- `FileReader.from_offsets(format_def)`. -/
def fromOffsetsText (src : String) : Except Err Reader := do
  let (hdr, stmts) ← collectOff (splitLines src) ("<\n", [])
  fromOffsetsCore hdr stmts

/-! ## Well-formedness predicates used by the round-trip theorems -/

/-- The type tags a compiled format can contain. -/
def validTag (t : Char) : Bool :=
  t == 'x' || t == 's' || t == 'p' || t == 'c' || t == '?' ||
  t == 'f' || t == 'd' || isIntTag t

/-- A value in range for one scalar element of tag `t`: the exact-width,
no-truncation condition of the spec's round-trip property. -/
def wfElemVal (t : Char) (v : Value) : Bool :=
  match v with
  | .vbool _ => t == '?'
  | .vbytes bs => t == 'c' && bs.length == 1
  | .vf32 bits => t == 'f' && bits < 256 ^ 4
  | .vf64 bits => t == 'd' && bits < 256 ^ 8
  | .vint n => isIntTag t && intInRange (tagSigned t) (elemWidth t) n

/-- A value in range for a whole (single-valued) field. -/
def wfFragVal (f : Frag) (v : Value) : Bool :=
  if f.tag = 's' then
    match v with
    | .vbytes bs => bs.length == f.cnt
    | _ => false
  else if f.tag = 'p' then
    match v with
    | .vbytes bs => bs.length ≤ min (f.cnt - 1) 255
    | _ => false
  else wfElemVal f.tag v

/-- The byte slice of one field survives a decode/encode cycle: padding
bytes must be zero, bool bytes 0/1, and a pascal slice must carry a length
byte within bounds and zero tail padding. -/
def sliceOK (f : Frag) (slice : List Nat) : Bool :=
  if f.tag = 'x' then slice.all (fun b => b == 0)
  else if f.tag = '?' then slice.all (fun b => b ≤ 1)
  else if f.tag = 'p' then
    match slice with
    | [] => true
    | l :: rest => l ≤ f.cnt - 1 && (rest.drop l).all (fun b => b == 0)
  else true

/-- `sliceOK` for every field's slice of a buffer. -/
def ReversibleData : List Frag → List Nat → Bool
  | [], _ => true
  | f :: fs, data =>
      sliceOK f (data.take (fragSize f)) && ReversibleData fs (data.drop (fragSize f))

/-- A well-formed layout: distinct field names, recognised tags, the
padding-name convention aligned with the padding type (so the name filter
and the valueless `x` fields skip the same positions), and single-valued
fields (a scalar repeat count other than one desynchronises the
name/value zip — see the corrected round-trip claims). -/
def WFReader (r : Reader) : Prop :=
  (r.format.map (fun kv => kv.1)).Nodup ∧
  ∀ kv ∈ r.format, validTag kv.2.tag = true ∧
    (isPadName kv.1 = true ↔ kv.2.tag = 'x') ∧
    (kv.2.tag ≠ 'x' → fragValueCount kv.2 = 1)

instance (r : Reader) : Decidable (WFReader r) := by
  unfold WFReader; infer_instance

/-- The value list a well-formed layout expects: nothing for a padding
field, one in-range value for every other field. -/
def wfVals : List Frag → List Value → Bool
  | [], vs => vs.isEmpty
  | f :: fs, [] => if f.tag = 'x' then wfVals fs [] else false
  | f :: fs, v :: vs2 =>
      if f.tag = 'x' then wfVals fs (v :: vs2) else wfFragVal f v && wfVals fs vs2

/-- The single value of a non-padding single-valued field. -/
def oneValue (be : Bool) (f : Frag) (slice : List Nat) : Value :=
  if f.tag = 's' then .vbytes slice
  else if f.tag = 'p' then .vbytes (unpackPascal f.cnt slice)
  else unpackElem be f.tag (slice.take (elemWidth f.tag))

/-- The mapping `unpack` builds before massaging, with each non-padding
field paired with its decoded value in field order. -/
def rawDict (be : Bool) : List (String × Frag) → List Nat → List (String × Value)
  | [], _ => []
  | (k, f) :: fmt, data =>
      (if f.tag = 'x' then [] else [(k, oneValue be f (data.take (fragSize f)))]) ++
        rawDict be fmt (data.drop (fragSize f))

/-- The padding-alignment half of layout well-formedness: padding names
mark exactly the `x` fields, and every other field is single-valued. -/
def PadAligned (fmt : List (String × Frag)) : Prop :=
  ∀ kv ∈ fmt, (isPadName kv.1 = true ↔ kv.2.tag = 'x') ∧
    (kv.2.tag ≠ 'x' → fragValueCount kv.2 = 1)

/-- Dictionary lookup (`dictionary[k]` / `k in dictionary`). -/
def lookupV (m : List (String × Value)) (k : String) : Option Value :=
  (m.find? (fun p => p.1 == k)).map (fun p => p.2)

/-- The lexicographic tuple order `stmtLE` in propositional form, for the
sort lemmas. -/
def stmtRel (a b : Nat × String) : Prop := stmtLE a b = true

instance : DecidableRel stmtRel := fun a b => by
  unfold stmtRel
  infer_instance

instance : IsTotal (Nat × String) stmtRel := by
  constructor
  intro a b
  unfold stmtRel stmtLE
  simp only [Bool.or_eq_true, Bool.and_eq_true, decide_eq_true_eq, beq_iff_eq]
  rcases Nat.lt_trichotomy a.1 b.1 with h | h | h
  · exact Or.inl (Or.inl h)
  · rcases le_total a.2 b.2 with h2 | h2
    · exact Or.inl (Or.inr ⟨h, h2⟩)
    · exact Or.inr (Or.inr ⟨h.symm, h2⟩)
  · exact Or.inr (Or.inl h)

instance : IsTrans (Nat × String) stmtRel := by
  constructor
  intro a b c hab hbc
  unfold stmtRel stmtLE at hab hbc ⊢
  simp only [Bool.or_eq_true, Bool.and_eq_true, decide_eq_true_eq, beq_iff_eq] at hab hbc ⊢
  rcases hab with h1 | ⟨h1, h1s⟩ <;> rcases hbc with h2 | ⟨h2, h2s⟩
  · exact Or.inl (h1.trans h2)
  · exact Or.inl (h2 ▸ h1)
  · exact Or.inl (h1 ▸ h2)
  · exact Or.inr ⟨h1.trans h2, le_trans h1s h2s⟩

instance : IsAntisymm (Nat × String) stmtRel := by
  constructor
  intro a b hab hba
  unfold stmtRel stmtLE at hab hba
  simp only [Bool.or_eq_true, Bool.and_eq_true, decide_eq_true_eq, beq_iff_eq] at hab hba
  rcases hab with h1 | ⟨h1, h1s⟩ <;> rcases hba with h2 | ⟨h2, h2s⟩
  · exact absurd (h1.trans h2) (lt_irrefl _)
  · exact absurd h1 (h2 ▸ lt_irrefl _)
  · exact absurd h2 (h1 ▸ lt_irrefl _)
  · exact Prod.ext h1 (le_antisymm h1s h2s)

/-! ## Concrete codecs used to instantiate the claims -/

/-- A one-field `bool flag` codec, as `FileReader("bool flag")` compiles it. -/
def readerBool : Reader := ⟨'<', '<', [("flag", ⟨none, '?'⟩)], "<?", [], []⟩

/-- A tuple-format codec with a padding byte before a bool field
(`FileReader(format=[("padding1", "x"), ("flag", "?")])`). -/
def readerPad : Reader :=
  ⟨'<', '<', [("padding1", ⟨none, 'x'⟩), ("flag", ⟨none, '?'⟩)], "<x?", [], []⟩

/-- An `unparse_options` hook whose output is two bytes, shorter than the
six-byte field it serves. -/
def unparseOptionsHook : Hook := fun _ => Value.vbytes [65, 66]

/-- Caller globals defining only `unparse_options` (no `parse_options`, so
that side defaults to the identity). -/
def envC5 : String → Option Hook := fun s =>
  if s = "unparse_options" then some unparseOptionsHook else none

/-- The codec `FileReader("options[6] options")` compiled under `envC5`:
one six-byte custom field with hooks. -/
def readerC5 : Reader :=
  ⟨'<', '<', [("options", ⟨some 6, 's'⟩)], "<6s",
   [("options", idHook)], [("options", unparseOptionsHook)]⟩

/-! ## Lemmas: byte-level integer coding -/

theorem length_leBytes (w n : Nat) : (leBytes w n).length = w := by
  induction w generalizing n with
  | zero => rfl
  | succ w ih => simp [leBytes, ih]

theorem leBytes_lt (w n : Nat) : ∀ b ∈ leBytes w n, b < 256 := by
  induction w generalizing n with
  | zero => simp [leBytes]
  | succ w ih =>
      intro b hb
      rcases List.mem_cons.1 hb with h | h
      · subst h; exact Nat.mod_lt _ (by norm_num)
      · exact ih _ _ h

theorem natOfLE_leBytes (w n : Nat) (h : n < 256 ^ w) : natOfLE (leBytes w n) = n := by
  induction w generalizing n with
  | zero => simp [pow_zero] at h; simp [leBytes, natOfLE, h]
  | succ w ih =>
      have hdiv : n / 256 < 256 ^ w := by
        rw [Nat.div_lt_iff_lt_mul (by norm_num)]
        calc n < 256 ^ (w + 1) := h
          _ = 256 ^ w * 256 := by ring
      simp only [leBytes, natOfLE, ih _ hdiv]
      exact Nat.mod_add_div n 256

theorem leBytes_natOfLE (bs : List Nat) (h : ∀ b ∈ bs, b < 256) :
    leBytes bs.length (natOfLE bs) = bs := by
  induction bs with
  | nil => rfl
  | cons b bs ih =>
      have hb : b < 256 := h b (by simp)
      have h1 : (b + 256 * natOfLE bs) % 256 = b := by
        rw [Nat.add_mul_mod_self_left]; exact Nat.mod_eq_of_lt hb
      have h2 : (b + 256 * natOfLE bs) / 256 = natOfLE bs := by
        rw [Nat.add_mul_div_left _ _ (by norm_num : (0:Nat) < 256),
          Nat.div_eq_of_lt hb, Nat.zero_add]
      simp only [List.length_cons, leBytes, natOfLE, h1, h2,
        ih (fun x hx => h x (by simp [hx]))]

theorem natOfLE_lt (bs : List Nat) (h : ∀ b ∈ bs, b < 256) :
    natOfLE bs < 256 ^ bs.length := by
  induction bs with
  | nil => simp [natOfLE]
  | cons b bs ih =>
      have hb : b < 256 := h b (by simp)
      have ht := ih (fun x hx => h x (by simp [hx]))
      simp only [natOfLE, List.length_cons, pow_succ]
      calc b + 256 * natOfLE bs < 256 + 256 * natOfLE bs := by omega
        _ = 256 * (natOfLE bs + 1) := by ring
        _ ≤ 256 * 256 ^ bs.length := by
            exact Nat.mul_le_mul_left _ (by omega)
        _ = 256 ^ bs.length * 256 := by ring

theorem length_ordBytes (be : Bool) (w n : Nat) : (ordBytes be w n).length = w := by
  cases be <;> simp [ordBytes, length_leBytes]

theorem ordBytes_lt (be : Bool) (w n : Nat) : ∀ b ∈ ordBytes be w n, b < 256 := by
  cases be <;> simp only [ordBytes, if_true, if_false, Bool.false_eq_true, List.mem_reverse] <;>
    exact leBytes_lt w n

theorem natOfSlice_ordBytes (be : Bool) (w n : Nat) (h : n < 256 ^ w) :
    natOfSlice be (ordBytes be w n) = n := by
  cases be <;> simp [ordBytes, natOfSlice, natOfLE_leBytes w n h]

theorem ordBytes_natOfSlice (be : Bool) (bs : List Nat) (h : ∀ b ∈ bs, b < 256) :
    ordBytes be bs.length (natOfSlice be bs) = bs := by
  cases be with
  | false => simpa [ordBytes, natOfSlice] using leBytes_natOfLE bs h
  | true =>
      have := leBytes_natOfLE bs.reverse (fun b hb => h b (List.mem_reverse.1 hb))
      simp only [List.length_reverse] at this
      simp [ordBytes, natOfSlice, this]

theorem natOfSlice_lt (be : Bool) (bs : List Nat) (h : ∀ b ∈ bs, b < 256) :
    natOfSlice be bs < 256 ^ bs.length := by
  cases be with
  | false => simpa [natOfSlice] using natOfLE_lt bs h
  | true =>
      have := natOfLE_lt bs.reverse (fun b hb => h b (List.mem_reverse.1 hb))
      simpa [natOfSlice] using this

theorem natOfSlice_singleton (be : Bool) (b : Nat) : natOfSlice be [b] = b := by
  cases be <;> simp [natOfSlice, natOfLE]

/-! ## Lemmas: integer encode/decode -/

theorem pow256_eq (w : Nat) : (256 : Nat) ^ w = 2 ^ (8 * w) := by
  rw [pow_mul]; norm_num

theorem int_pow256_eq (w : Nat) : ((2 : Int) ^ (8 * w)) = ((256 ^ w : Nat) : Int) := by
  push_cast [pow256_eq]; ring

theorem two_mul_half (w : Nat) (hw : 0 < w) :
    2 * (2 : Int) ^ (8 * w - 1) = 2 ^ (8 * w) := by
  have : 8 * w - 1 + 1 = 8 * w := by omega
  calc 2 * (2 : Int) ^ (8 * w - 1) = 2 ^ (8 * w - 1 + 1) := by ring
    _ = 2 ^ (8 * w) := by rw [this]

/-- Decoding inverts encoding, and the encoded accumulation is in width. -/
theorem decodeInt_encodeInt (sg : Bool) (w : Nat) (hw : 0 < w) (n : Int) (u : Nat)
    (h : encodeInt sg w n = some u) :
    decodeInt sg w u = n ∧ u < 256 ^ w := by
  have hMH : 2 * (2 : Int) ^ (8 * w - 1) = 2 ^ (8 * w) := two_mul_half w hw
  have hpow : ((256 ^ w : Nat) : Int) = 2 ^ (8 * w) := (int_pow256_eq w).symm
  have hpowH : ((2 ^ (8 * w - 1) : Nat) : Int) = 2 ^ (8 * w - 1) := by push_cast; ring
  have hHpos : (0 : Int) < 2 ^ (8 * w - 1) := by positivity
  unfold encodeInt at h
  by_cases hr : intInRange sg w n = true
  swap
  · simp [hr] at h
  simp only [hr, if_true, Option.some.injEq] at h
  subst h
  unfold intInRange at hr
  cases sg with
  | false =>
      simp only [if_false, Bool.false_eq_true, decide_eq_true_eq] at hr
      have hmod : n % 2 ^ (8 * w) = n := Int.emod_eq_of_lt hr.1 hr.2
      rw [hmod]
      unfold decodeInt
      simp only [Bool.false_and, if_false, Bool.false_eq_true]
      exact ⟨by omega, by omega⟩
  | true =>
      simp only [if_true, decide_eq_true_eq] at hr
      by_cases hn : 0 ≤ n
      · have hmod : n % 2 ^ (8 * w) = n := Int.emod_eq_of_lt hn (by omega)
        rw [hmod]
        unfold decodeInt
        have hlt : ¬ 2 ^ (8 * w - 1) ≤ n.toNat := by omega
        simp only [Bool.true_and, decide_eq_true_eq, if_neg hlt]
        exact ⟨by omega, by omega⟩
      · push_neg at hn
        have h1 : (n + 2 ^ (8 * w)) % 2 ^ (8 * w) = n % 2 ^ (8 * w) := by
          have := Int.add_mul_emod_self_left (a := n) (b := 2 ^ (8 * w)) (c := 1)
          simp only [mul_one] at this
          exact this
        have h2 : (n + 2 ^ (8 * w)) % 2 ^ (8 * w) = n + 2 ^ (8 * w) :=
          Int.emod_eq_of_lt (by omega) (by omega)
        have hmod : n % 2 ^ (8 * w) = n + 2 ^ (8 * w) := by rw [← h1, h2]
        rw [hmod]
        unfold decodeInt
        have hge : 2 ^ (8 * w - 1) ≤ (n + 2 ^ (8 * w)).toNat := by omega
        simp only [Bool.true_and, decide_eq_true_eq, if_pos hge]
        exact ⟨by omega, by omega⟩

/-- Encoding inverts decoding on any in-width accumulation. -/
theorem encodeInt_decodeInt (sg : Bool) (w : Nat) (hw : 0 < w) (u : Nat)
    (h : u < 256 ^ w) :
    encodeInt sg w (decodeInt sg w u) = some u := by
  have hMH : 2 * (2 : Int) ^ (8 * w - 1) = 2 ^ (8 * w) := two_mul_half w hw
  have hpow : ((256 ^ w : Nat) : Int) = 2 ^ (8 * w) := (int_pow256_eq w).symm
  have hpowH : ((2 ^ (8 * w - 1) : Nat) : Int) = 2 ^ (8 * w - 1) := by push_cast; ring
  have hHpos : (0 : Int) < 2 ^ (8 * w - 1) := by positivity
  have huM : (u : Int) < 2 ^ (8 * w) := by omega
  cases sg with
  | false =>
      unfold decodeInt
      simp only [Bool.false_and, if_false, Bool.false_eq_true]
      unfold encodeInt intInRange
      have hr : (0 : Int) ≤ u ∧ (u : Int) < 2 ^ (8 * w) := ⟨by positivity, huM⟩
      simp only [if_false, Bool.false_eq_true, decide_eq_true_eq, hr, if_true, if_pos]
      have hmod : (u : Int) % 2 ^ (8 * w) = u := Int.emod_eq_of_lt (by positivity) huM
      rw [hmod]
      simp
  | true =>
      unfold decodeInt
      by_cases hu : 2 ^ (8 * w - 1) ≤ u
      · simp only [Bool.true_and, decide_eq_true_eq, if_pos hu]
        unfold encodeInt intInRange
        have hr : -(2 : Int) ^ (8 * w - 1) ≤ (u : Int) - 2 ^ (8 * w) ∧
            (u : Int) - 2 ^ (8 * w) < 2 ^ (8 * w - 1) := ⟨by omega, by omega⟩
        simp only [if_true, decide_eq_true_eq, hr, if_pos]
        have h1 : ((u : Int) - 2 ^ (8 * w) + 2 ^ (8 * w)) % 2 ^ (8 * w) =
            ((u : Int) - 2 ^ (8 * w)) % 2 ^ (8 * w) := by
          have :=
            Int.add_mul_emod_self_left (a := (u : Int) - 2 ^ (8 * w)) (b := 2 ^ (8 * w)) (c := 1)
          simp only [mul_one] at this
          exact this
        have h2 : (u : Int) - 2 ^ (8 * w) + 2 ^ (8 * w) = (u : Int) := by ring
        have h3 : ((u : Int) - 2 ^ (8 * w)) % 2 ^ (8 * w) = u := by
          rw [← h1, h2]; exact Int.emod_eq_of_lt (by positivity) huM
        rw [h3]
        simp
      · simp only [Bool.true_and, decide_eq_true_eq, if_neg hu]
        unfold encodeInt intInRange
        have hr : -(2 : Int) ^ (8 * w - 1) ≤ (u : Int) ∧ (u : Int) < 2 ^ (8 * w - 1) :=
          ⟨by omega, by omega⟩
        simp only [if_true, decide_eq_true_eq, hr, if_pos]
        have hmod : (u : Int) % 2 ^ (8 * w) = u := Int.emod_eq_of_lt (by positivity) huM
        rw [hmod]
        simp

/-! ## Lemmas: element-level round trips -/

theorem isIntTag_cases (t : Char) (h : isIntTag t = true) :
    t = 'B' ∨ t = 'b' ∨ t = 'H' ∨ t = 'h' ∨ t = 'I' ∨ t = 'i' ∨ t = 'L' ∨ t = 'l' := by
  simp only [isIntTag, Bool.or_eq_true, beq_iff_eq] at h
  rcases h with ((((((h | h) | h) | h) | h) | h) | h) | h <;> tauto

theorem intElem_roundtrip (be sg : Bool) (w : Nat) (hw : 0 < w) (slice : List Nat)
    (hlen : slice.length = w) (hb : ∀ b ∈ slice, b < 256) :
    (encodeInt sg w (decodeInt sg w (natOfSlice be slice))).map (ordBytes be w) =
      some slice := by
  have hu : natOfSlice be slice < 256 ^ w := hlen ▸ natOfSlice_lt be slice hb
  rw [encodeInt_decodeInt sg w hw _ hu]
  have := ordBytes_natOfSlice be slice hb
  rw [hlen] at this
  simp [this]

theorem intElem_roundtrip2 (be sg : Bool) (w : Nat) (hw : 0 < w) (n : Int)
    (hr : intInRange sg w n = true) :
    ∃ bs, (encodeInt sg w n).map (ordBytes be w) = some bs ∧ bs.length = w ∧
      decodeInt sg w (natOfSlice be bs) = n := by
  have henc : encodeInt sg w n = some (n % ((2 : Int) ^ (8 * w))).toNat := by
    simp [encodeInt, hr]
  obtain ⟨hdec, hult⟩ := decodeInt_encodeInt sg w hw n _ henc
  refine ⟨ordBytes be w (n % ((2 : Int) ^ (8 * w))).toNat, by simp [henc],
    length_ordBytes be w _, ?_⟩
  rw [natOfSlice_ordBytes be w _ hult]
  exact hdec

/-- Bytes-side element round trip: re-packing a decoded in-width slice gives
back the slice (bool slices must be canonical 0/1). -/
theorem packElem_unpackElem (be : Bool) (t : Char) (slice : List Nat)
    (ht : isIntTag t = true ∨ t = 'c' ∨ t = '?' ∨ t = 'f' ∨ t = 'd')
    (hlen : slice.length = elemWidth t)
    (hb : ∀ b ∈ slice, b < 256)
    (hq : t = '?' → slice = [0] ∨ slice = [1]) :
    packElem be t (unpackElem be t slice) = some slice := by
  rcases ht with hint | ht | ht | ht | ht
  · rcases isIntTag_cases t hint with h | h | h | h | h | h | h | h <;>
      · subst h
        simp only [elemWidth] at hlen
        simpa [unpackElem, packElem, isIntTag, tagSigned, elemWidth] using
          intElem_roundtrip be _ _ (by norm_num) slice hlen hb
  · subst ht
    simp only [elemWidth] at hlen
    simp [unpackElem, packElem, hlen]
  · subst ht
    rcases hq rfl with h | h <;> subst h <;>
      simp [unpackElem, packElem, natOfSlice_singleton]
  · subst ht
    simp only [elemWidth] at hlen
    have hu := natOfSlice_lt be slice hb
    rw [hlen] at hu
    norm_num at hu
    have hob := ordBytes_natOfSlice be slice hb
    rw [hlen] at hob
    simp [unpackElem, packElem, hu, hob]
  · subst ht
    simp only [elemWidth] at hlen
    have hu := natOfSlice_lt be slice hb
    rw [hlen] at hu
    norm_num at hu
    have hob := ordBytes_natOfSlice be slice hb
    rw [hlen] at hob
    simp [unpackElem, packElem, hu, hob]

/-- Values-side element round trip: an in-range value packs and decodes back
to itself. -/
theorem unpackElem_packElem (be : Bool) (t : Char) (v : Value)
    (hv : wfElemVal t v = true) :
    ∃ bs, packElem be t v = some bs ∧ bs.length = elemWidth t ∧
      unpackElem be t bs = v := by
  cases v with
  | vbool b =>
      simp only [wfElemVal, beq_iff_eq] at hv
      subst hv
      refine ⟨[cond b 1 0], rfl, by cases b <;> rfl, ?_⟩
      cases b <;> simp [unpackElem, natOfSlice_singleton]
  | vbytes bs =>
      simp only [wfElemVal, Bool.and_eq_true, beq_iff_eq, Nat.beq_eq] at hv
      obtain ⟨ht, hlenv⟩ := hv
      subst ht
      exact ⟨bs, by simp [packElem, hlenv], by simp [elemWidth, hlenv],
        by simp [unpackElem]⟩
  | vf32 bits =>
      simp only [wfElemVal, Bool.and_eq_true, beq_iff_eq, decide_eq_true_eq] at hv
      obtain ⟨ht, hlt⟩ := hv
      subst ht
      have hlt' : bits < 4294967296 := by norm_num at hlt; exact hlt
      refine ⟨ordBytes be 4 bits, by simp [packElem, hlt'],
        by simp [elemWidth, length_ordBytes], ?_⟩
      simp [unpackElem, natOfSlice_ordBytes be 4 bits hlt]
  | vf64 bits =>
      simp only [wfElemVal, Bool.and_eq_true, beq_iff_eq, decide_eq_true_eq] at hv
      obtain ⟨ht, hlt⟩ := hv
      subst ht
      have hlt' : bits < 18446744073709551616 := by norm_num at hlt; exact hlt
      refine ⟨ordBytes be 8 bits, by simp [packElem, hlt'],
        by simp [elemWidth, length_ordBytes], ?_⟩
      simp [unpackElem, natOfSlice_ordBytes be 8 bits hlt]
  | vint n =>
      simp only [wfElemVal, Bool.and_eq_true] at hv
      obtain ⟨hint, hrange⟩ := hv
      rcases isIntTag_cases t hint with h | h | h | h | h | h | h | h <;>
        · subst h
          obtain ⟨bs, hpk, hlenb, hdec⟩ :=
            intElem_roundtrip2 be (tagSigned _) (elemWidth _) (by decide) n hrange
          refine ⟨bs, ?_, hlenb, ?_⟩
          · simpa [packElem, isIntTag] using hpk
          · simp [unpackElem, hdec]

/-! ## Lemmas: field-level round trips -/

theorem length_unpackReps (be : Bool) (t : Char) (k : Nat) (data : List Nat) :
    (unpackReps be t k data).length = k := by
  induction k generalizing data with
  | zero => rfl
  | succ k ih => simp [unpackReps, ih]

theorem length_fieldValues (be : Bool) (f : Frag) (slice : List Nat) :
    (fieldValues be f slice).length = fragValueCount f := by
  by_cases hx : f.tag = 'x'
  · simp [fieldValues, fragValueCount, hx]
  · by_cases hs : f.tag = 's'
    · simp [fieldValues, fragValueCount, hx, hs]
    · by_cases hp : f.tag = 'p'
      · simp [fieldValues, fragValueCount, hx, hs, hp]
      · simp [fieldValues, fragValueCount, hx, hs, hp, length_unpackReps]

theorem scalarTag_ne (t : Char)
    (ht : isIntTag t = true ∨ t = 'c' ∨ t = '?' ∨ t = 'f' ∨ t = 'd') :
    t ≠ 'x' ∧ t ≠ 's' ∧ t ≠ 'p' := by
  rcases ht with h | h | h | h | h
  · rcases isIntTag_cases t h with h | h | h | h | h | h | h | h <;> subst h <;>
      exact ⟨by decide, by decide, by decide⟩
  all_goals subst h
  all_goals exact ⟨by decide, by decide, by decide⟩

theorem elemWidth_pos (t : Char)
    (ht : isIntTag t = true ∨ t = 'c' ∨ t = '?' ∨ t = 'f' ∨ t = 'd') :
    0 < elemWidth t := by
  rcases ht with h | h | h | h | h
  · rcases isIntTag_cases t h with h | h | h | h | h | h | h | h <;> subst h <;> decide
  all_goals subst h
  all_goals decide

/-- Bytes-side field round trip, single-scalar case. -/
theorem packFieldVals_fieldValues_scalar (be : Bool) (f : Frag) (slice : List Nat)
    (hsc : isIntTag f.tag = true ∨ f.tag = 'c' ∨ f.tag = '?' ∨ f.tag = 'f' ∨ f.tag = 'd')
    (hone : f.tag ≠ 'x' → fragValueCount f = 1)
    (hlen : slice.length = fragSize f)
    (hb : ∀ b ∈ slice, b < 256)
    (hok : sliceOK f slice = true) :
    packFieldVals be f (fieldValues be f slice) = some slice := by
  obtain ⟨hx, hs, hp⟩ := scalarTag_ne f.tag hsc
  have hcnt : f.cnt = 1 := by
    have := hone hx
    simpa [fragValueCount, hx, hs, hp] using this
  have hlen' : slice.length = elemWidth f.tag := by
    simpa [fragSize, hx, hs, hp, hcnt] using hlen
  have htake : slice.take (elemWidth f.tag) = slice := by
    rw [← hlen']; exact List.take_length slice
  have hq : f.tag = '?' → slice = [0] ∨ slice = [1] := by
    intro h'
    have hall : ∀ b ∈ slice, b ≤ 1 := by
      simpa [sliceOK, h', List.all_eq_true] using hok
    have hlen1 : slice.length = 1 := by simpa [h', elemWidth] using hlen'
    match slice, hlen1 with
    | [b], _ =>
        have := hall b (by simp)
        interval_cases b
        · exact Or.inl rfl
        · exact Or.inr rfl
  have hrt := packElem_unpackElem be f.tag slice hsc hlen' hb hq
  simp [packFieldVals, fieldValues, hx, hs, hp, hcnt, unpackReps, htake, packList, hrt]

/-- Bytes-side round trip for one whole field: re-packing the values decoded
from a reversible in-width slice restores the slice. -/
theorem packFieldVals_fieldValues (be : Bool) (f : Frag) (slice : List Nat)
    (hval : validTag f.tag = true)
    (hone : f.tag ≠ 'x' → fragValueCount f = 1)
    (hlen : slice.length = fragSize f)
    (hb : ∀ b ∈ slice, b < 256)
    (hok : sliceOK f slice = true) :
    packFieldVals be f (fieldValues be f slice) = some slice := by
  simp only [validTag, Bool.or_eq_true, beq_iff_eq] at hval
  rcases hval with ((((((h | h) | h) | h) | h) | h) | h) | hint
  · -- padding: the whole slice is zero bytes
    have hlen' : slice.length = f.cnt := by simpa [fragSize, h] using hlen
    have hz : ∀ b ∈ slice, b = 0 := by
      simpa [sliceOK, h, List.all_eq_true] using hok
    have hsl : slice = List.replicate f.cnt 0 := by
      rw [← hlen', List.eq_replicate_length]
      exact hz
    simp only [packFieldVals, fieldValues, h, if_true, if_pos]
    rw [← hsl]
  · -- fixed byte string: the value is the slice itself
    have hlen' : slice.length = f.cnt := by simpa [fragSize, h] using hlen
    have htake : slice.take f.cnt = slice := by
      rw [← hlen']; exact List.take_length slice
    simp [packFieldVals, fieldValues, h, padTo, hlen', htake]
  · -- pascal string
    have hlen' : slice.length = f.cnt := by simpa [fragSize, h] using hlen
    cases slice with
    | nil =>
        have hc : f.cnt = 0 := by simpa using hlen'.symm
        simp [packFieldVals, fieldValues, h, unpackPascal, packPascal, hc]
    | cons l rest =>
        have hc : f.cnt = rest.length + 1 := by simpa using hlen'.symm
        have hokp : l ≤ f.cnt - 1 ∧ ∀ b ∈ rest.drop l, b = 0 := by
          simpa [sliceOK, h, List.all_eq_true] using hok
        have hlrest : l ≤ rest.length := by omega
        have hl255 : l ≤ 255 := by
          have := hb l (by simp)
          omega
        have hval : unpackPascal f.cnt (l :: rest) = rest.take l := by
          simp [unpackPascal, Nat.min_eq_left (hokp.1)]
        have hlentake : (rest.take l).length = l := by
          simp [List.length_take, Nat.min_eq_left hlrest]
        have hdropz : rest.drop l = List.replicate (rest.length - l) 0 := by
          have : rest.drop l = List.replicate (rest.drop l).length 0 := by
            rw [List.eq_replicate_length]
            exact hokp.2
          simpa [List.length_drop] using this
        have hsplit : rest.take l ++ List.replicate (rest.length - l) 0 = rest := by
          rw [← hdropz, List.take_append_drop]
        have hn : min (min (rest.take l).length (f.cnt - 1)) 255 = l := by
          rw [hlentake]
          omega
        have hpp : packPascal f.cnt (rest.take l) = l :: rest := by
          unfold packPascal
          rw [hn, List.take_take, Nat.min_self]
          have h1 : f.cnt - 1 - l = rest.length - l := by omega
          rw [h1, List.cons_append, hsplit, ← hlen']
          exact List.take_length _
        have hfv : fieldValues be f (l :: rest) = [.vbytes (rest.take l)] := by
          simp [fieldValues, h, hval]
        have hstep : packFieldVals be f [Value.vbytes (rest.take l)] =
            some (packPascal f.cnt (rest.take l)) := by
          simp [packFieldVals, h]
        rw [hfv, hstep, hpp]
  · exact packFieldVals_fieldValues_scalar be f slice (Or.inr (Or.inl h)) hone hlen hb hok
  · exact packFieldVals_fieldValues_scalar be f slice (Or.inr (Or.inr (Or.inl h))) hone hlen
      hb hok
  · exact packFieldVals_fieldValues_scalar be f slice (Or.inr (Or.inr (Or.inr (Or.inl h))))
      hone hlen hb hok
  · exact packFieldVals_fieldValues_scalar be f slice
      (Or.inr (Or.inr (Or.inr (Or.inr h)))) hone hlen hb hok
  · exact packFieldVals_fieldValues_scalar be f slice (Or.inl hint) hone hlen hb hok

theorem length_packPascal (c : Nat) (bs : List Nat) : (packPascal c bs).length = c := by
  unfold packPascal
  have h1 : min (min bs.length (c - 1)) 255 ≤ c - 1 :=
    le_trans (Nat.min_le_left _ _) (Nat.min_le_right _ _)
  have h2 : min (min bs.length (c - 1)) 255 ≤ bs.length :=
    le_trans (Nat.min_le_left _ _) (Nat.min_le_left _ _)
  rw [List.length_take]
  have h4 : c ≤ ((min (min bs.length (c - 1)) 255 ::
      bs.take (min (min bs.length (c - 1)) 255)) ++
      List.replicate (c - 1 - min (min bs.length (c - 1)) 255) 0).length := by
    simp only [List.length_append, List.length_cons, List.length_take,
      List.length_replicate, Nat.min_eq_left h2]
    omega
  exact Nat.min_eq_left h4

theorem length_packElem (be : Bool) (t : Char) (v : Value) (bs : List Nat)
    (h : packElem be t v = some bs) : bs.length = elemWidth t := by
  unfold packElem at h
  split at h
  · simp only [Option.some.injEq] at h
    subst h
    rfl
  · split at h
    · simp only [Option.some.injEq] at h
      subst h
      simpa [elemWidth] using by assumption
    · exact absurd h (by simp)
  · split at h
    · simp only [Option.some.injEq] at h
      subst h
      simp [elemWidth, length_ordBytes]
    · exact absurd h (by simp)
  · split at h
    · simp only [Option.some.injEq] at h
      subst h
      simp [elemWidth, length_ordBytes]
    · exact absurd h (by simp)
  · split at h
    · rename_i hint
      rcases Option.map_eq_some'.1 h with ⟨u, _, hbs⟩
      subst hbs
      exact length_ordBytes _ _ _
    · exact absurd h (by simp)
  · exact absurd h (by simp)

theorem length_packList (be : Bool) (t : Char) (vs : List Value) (bs : List Nat)
    (h : packList be t vs = some bs) : bs.length = vs.length * elemWidth t := by
  induction vs generalizing bs with
  | nil =>
      simp only [packList, Option.some.injEq] at h
      subst h
      simp
  | cons v vs ih =>
      simp only [packList] at h
      cases hb : packElem be t v with
      | none => simp [hb] at h
      | some b =>
          cases hr : packList be t vs with
          | none => simp [hb, hr] at h
          | some r =>
              simp only [hb, hr, Option.bind_eq_bind, Option.some_bind, Option.pure_def,
                Option.some.injEq] at h
              subst h
              simp only [List.length_append, List.length_cons,
                length_packElem be t v b hb, ih r hr]
              ring

theorem length_packFieldVals (be : Bool) (f : Frag) (vs : List Value) (bs : List Nat)
    (h : packFieldVals be f vs = some bs) : bs.length = fragSize f := by
  unfold packFieldVals at h
  by_cases hx : f.tag = 'x'
  · rw [if_pos hx] at h
    rcases vs with _ | ⟨v, vs⟩
    · simp only [Option.some.injEq] at h
      subst h
      simp [fragSize, hx]
    · simp at h
  · rw [if_neg hx] at h
    by_cases hs : f.tag = 's'
    · rw [if_pos hs] at h
      rcases vs with _ | ⟨v, _ | ⟨v2, vs2⟩⟩
      · simp at h
      · cases v with
        | vbytes b =>
            simp only [Option.some.injEq] at h
            subst h
            have hfs : fragSize f = f.cnt := by simp [fragSize, hs]
            simp only [padTo, List.length_append, List.length_take,
              List.length_replicate, hfs]
            omega
        | vint n => simp at h
        | vbool b => simp at h
        | vf32 b => simp at h
        | vf64 b => simp at h
      · simp at h
    · by_cases hp : f.tag = 'p'
      · rw [if_neg hs, if_pos hp] at h
        rcases vs with _ | ⟨v, _ | ⟨v2, vs2⟩⟩
        · simp at h
        · cases v with
          | vbytes b =>
              simp only [Option.some.injEq] at h
              subst h
              have hfs : fragSize f = f.cnt := by simp [fragSize, hp]
              rw [hfs]
              exact length_packPascal f.cnt b
          | vint n => simp at h
          | vbool b => simp at h
          | vf32 b => simp at h
          | vf64 b => simp at h
        · simp at h
      · rw [if_neg hs, if_neg hp] at h
        by_cases hlen : vs.length = f.cnt
        · rw [if_pos hlen] at h
          have := length_packList be f.tag vs bs h
          simp [this, hlen, fragSize, hx, hs, hp]
        · rw [if_neg hlen] at h
          exact absurd h (by simp)

/-- Values-side round trip for a single-valued field: a well-formed value
packs to exactly `fragSize` bytes and decodes back to itself. -/
theorem fieldValues_packFieldVals (be : Bool) (f : Frag) (v : Value)
    (hx : f.tag ≠ 'x')
    (hone : f.tag ≠ 'x' → fragValueCount f = 1)
    (hv : wfFragVal f v = true) :
    ∃ bs, packFieldVals be f [v] = some bs ∧ bs.length = fragSize f ∧
      fieldValues be f bs = [v] := by
  by_cases hs : f.tag = 's'
  · cases v with
    | vbytes bs =>
        have hlenv : bs.length = f.cnt := by
          simpa [wfFragVal, hs] using hv
        have htake : bs.take f.cnt = bs := by
          rw [← hlenv]; exact List.take_length bs
        refine ⟨bs, ?_, by simp [fragSize, hs, hlenv], by simp [fieldValues, hs]⟩
        simp [packFieldVals, hs, hx, padTo, htake, hlenv]
    | vint n => simp [wfFragVal, hs] at hv
    | vbool b => simp [wfFragVal, hs] at hv
    | vf32 bits => simp [wfFragVal, hs] at hv
    | vf64 bits => simp [wfFragVal, hs] at hv
  · by_cases hp : f.tag = 'p'
    · cases v with
      | vbytes bs =>
          have hlenv : bs.length ≤ min (f.cnt - 1) 255 := by
            simpa [wfFragVal, hs, hp] using hv
          have hl1 : bs.length ≤ f.cnt - 1 := le_trans hlenv (Nat.min_le_left _ _)
          have hl2 : bs.length ≤ 255 := le_trans hlenv (Nat.min_le_right _ _)
          have hn : min (min bs.length (f.cnt - 1)) 255 = bs.length := by omega
          have htake : bs.take bs.length = bs := List.take_length bs
          refine ⟨packPascal f.cnt bs, by simp [packFieldVals, hs, hp, hx],
            by rw [show fragSize f = f.cnt by simp [fragSize, hp]]
               exact length_packPascal f.cnt bs, ?_⟩
          unfold packPascal
          rw [hn, htake]
          rcases Nat.eq_zero_or_pos f.cnt with hc | hc
          · have hbs : bs = [] := by
              have : bs.length = 0 := by omega
              exact List.length_eq_zero.1 this
            subst hbs
            simp [hc, fieldValues, hs, hp, hx, unpackPascal]
          · have hlen2 : ((bs.length :: bs) ++
                List.replicate (f.cnt - 1 - bs.length) 0).length = f.cnt := by
              simp only [List.length_append, List.length_cons, List.length_replicate]
              omega
            have htk : (((bs.length :: bs) ++
                List.replicate (f.cnt - 1 - bs.length) 0)).take f.cnt =
                (bs.length :: bs) ++ List.replicate (f.cnt - 1 - bs.length) 0 :=
              List.take_of_length_le (le_of_eq hlen2)
            rw [htk, List.cons_append]
            have hfv : fieldValues be f
                (bs.length :: (bs ++ List.replicate (f.cnt - 1 - bs.length) 0)) =
                [Value.vbytes ((bs ++ List.replicate (f.cnt - 1 - bs.length) 0).take
                  (min bs.length (f.cnt - 1)))] := by
              simp [fieldValues, hs, hp, hx, unpackPascal]
            rw [hfv, Nat.min_eq_left hl1, List.take_left' rfl]
      | vint n => simp [wfFragVal, hs, hp] at hv
      | vbool b => simp [wfFragVal, hs, hp] at hv
      | vf32 bits => simp [wfFragVal, hs, hp] at hv
      | vf64 bits => simp [wfFragVal, hs, hp] at hv
    · have hwfe : wfElemVal f.tag v = true := by
        simpa [wfFragVal, hs, hp] using hv
      have hcnt : f.cnt = 1 := by
        have := hone hx
        simpa [fragValueCount, hx, hs, hp] using this
      obtain ⟨bs, hpk, hlenb, hup⟩ := unpackElem_packElem be f.tag v hwfe
      refine ⟨bs, ?_, ?_, ?_⟩
      · simp [packFieldVals, hx, hs, hp, hcnt, packList, hpk]
      · simp [fragSize, hx, hs, hp, hcnt, hlenb]
      · have htake : bs.take (elemWidth f.tag) = bs := by
          rw [← hlenb]; exact List.take_length bs
        simp [fieldValues, hx, hs, hp, hcnt, unpackReps, htake, hup]

/-! ## Lemmas: format-level round trips -/

theorem length_unpackFields (be : Bool) (fs : List Frag) (data : List Nat) :
    (unpackFields be fs data).length = countFields fs := by
  induction fs generalizing data with
  | nil => rfl
  | cons f fs ih => simp [unpackFields, countFields, length_fieldValues, ih, List.map_cons]

/-- Bytes-side round trip over a whole format. -/
theorem packFields_unpackFields (be : Bool) (fs : List Frag) (data : List Nat)
    (hwf : ∀ f ∈ fs, validTag f.tag = true ∧ (f.tag ≠ 'x' → fragValueCount f = 1))
    (hlen : data.length = sizeFields fs)
    (hb : ∀ b ∈ data, b < 256)
    (hrev : ReversibleData fs data = true) :
    packFields be fs (unpackFields be fs data) = some data := by
  induction fs generalizing data with
  | nil =>
      simp only [sizeFields, List.map_nil, List.sum_nil] at hlen
      have : data = [] := List.length_eq_zero.1 hlen
      subst this
      rfl
  | cons f fs ih =>
      have hwf1 := hwf f (by simp)
      have hwfr : ∀ g ∈ fs, validTag g.tag = true ∧ (g.tag ≠ 'x' → fragValueCount g = 1) :=
        fun g hg => hwf g (by simp [hg])
      have hszc : sizeFields (f :: fs) = fragSize f + sizeFields fs := by
        simp [sizeFields]
      have hsz : fragSize f ≤ data.length := by omega
      have hslice_len : (data.take (fragSize f)).length = fragSize f := by
        simp [List.length_take]
        omega
      have hrev1 : sliceOK f (data.take (fragSize f)) = true ∧
          ReversibleData fs (data.drop (fragSize f)) = true := by
        simpa [ReversibleData, Bool.and_eq_true] using hrev
      have hlen_fv : (fieldValues be f (data.take (fragSize f))).length = fragValueCount f :=
        length_fieldValues be f _
      have h1 := packFieldVals_fieldValues be f (data.take (fragSize f)) hwf1.1 hwf1.2
        hslice_len (fun b hb' => hb b (List.take_subset _ _ hb')) hrev1.1
      have h2 := ih (data.drop (fragSize f)) hwfr
        (by simp only [List.length_drop]; omega)
        (fun b hb' => hb b (List.drop_subset _ _ hb')) hrev1.2
      simp only [unpackFields, packFields]
      rw [List.take_left' hlen_fv, List.drop_left' hlen_fv, h1, h2]
      simp [List.take_append_drop]

/-- Values-side round trip over a whole format. -/
theorem unpackFields_packFields (be : Bool) (fs : List Frag) (vs : List Value)
    (hwf : ∀ f ∈ fs, validTag f.tag = true ∧ (f.tag ≠ 'x' → fragValueCount f = 1))
    (hvs : wfVals fs vs = true) :
    ∃ bs, packFields be fs vs = some bs ∧ bs.length = sizeFields fs ∧
      unpackFields be fs bs = vs := by
  induction fs generalizing vs with
  | nil =>
      simp only [wfVals, List.isEmpty_iff] at hvs
      subst hvs
      exact ⟨[], rfl, rfl, rfl⟩
  | cons f fs ih =>
      have hwf1 := hwf f (by simp)
      have hwfr : ∀ g ∈ fs, validTag g.tag = true ∧ (g.tag ≠ 'x' → fragValueCount g = 1) :=
        fun g hg => hwf g (by simp [hg])
      by_cases hx : f.tag = 'x'
      · have hvs2 : wfVals fs vs = true := by
          rcases vs with _ | ⟨v, vs2⟩ <;> simpa [wfVals, hx] using hvs
        obtain ⟨bs, hpk, hlenb, hupk⟩ := ih vs hwfr hvs2
        have hcnt0 : fragValueCount f = 0 := by simp [fragValueCount, hx]
        refine ⟨List.replicate f.cnt 0 ++ bs, ?_, ?_, ?_⟩
        · simp only [packFields, hcnt0, List.take_zero, List.drop_zero]
          simp [packFieldVals, hx, hpk]
        · simp [sizeFields, fragSize, hx, hlenb]
        · simp only [unpackFields]
          have hfsz : fragSize f = f.cnt := by simp [fragSize, hx]
          rw [hfsz, List.take_left' (by simp), List.drop_left' (by simp)]
          simp [fieldValues, hx, hupk]
      · rcases vs with _ | ⟨v, vs2⟩
        · simp [wfVals, hx] at hvs
        · have hvv : wfFragVal f v = true ∧ wfVals fs vs2 = true := by
            simpa [wfVals, hx, Bool.and_eq_true] using hvs
          have hcnt1 : fragValueCount f = 1 := hwf1.2 hx
          obtain ⟨b1, hp1, hl1, hf1⟩ := fieldValues_packFieldVals be f v hx hwf1.2 hvv.1
          obtain ⟨bs, hpk, hlenb, hupk⟩ := ih vs2 hwfr hvv.2
          refine ⟨b1 ++ bs, ?_, ?_, ?_⟩
          · simp only [packFields, hcnt1, List.take_succ_cons, List.take_zero,
              List.drop_succ_cons, List.drop_zero]
            simp [hp1, hpk]
          · simp [sizeFields, hl1, hlenb]
          · simp only [unpackFields]
            rw [List.take_left' hl1, List.drop_left' hl1]
            simp [hf1, hupk]

/-! ## Lemmas: the dictionary layer -/

theorem fieldValues_eq_oneValue (be : Bool) (f : Frag) (slice : List Nat)
    (hx : f.tag ≠ 'x') (hone : fragValueCount f = 1) :
    fieldValues be f slice = [oneValue be f slice] := by
  by_cases hs : f.tag = 's'
  · simp [fieldValues, oneValue, hs, hx]
  · by_cases hp : f.tag = 'p'
    · simp [fieldValues, oneValue, hs, hp, hx]
    · have hcnt : f.cnt = 1 := by simpa [fragValueCount, hx, hs, hp] using hone
      simp [fieldValues, oneValue, hs, hp, hx, hcnt, unpackReps]

theorem padAligned_cons (kv : String × Frag) (fmt : List (String × Frag))
    (h : PadAligned (kv :: fmt)) : PadAligned fmt :=
  fun q hq => h q (by simp [hq])

theorem padName_of_aligned (k : String) (f : Frag) (fmt : List (String × Frag))
    (h : PadAligned ((k, f) :: fmt)) (hx : f.tag = 'x') : isPadName k = true :=
  ((h (k, f) (by simp)).1).2 hx

theorem padName_false_of_aligned (k : String) (f : Frag) (fmt : List (String × Frag))
    (h : PadAligned ((k, f) :: fmt)) (hx : f.tag ≠ 'x') : isPadName k = false := by
  cases hpn : isPadName k
  · rfl
  · exact absurd (((h (k, f) (by simp)).1).1 hpn) hx

/-- `unpack`'s zip of filtered names with struct values lands exactly on the
per-field mapping, provided padding names align with `x` fields and every
other field is single-valued. -/
theorem zip_unpackFields (be : Bool) (fmt : List (String × Frag)) (data : List Nat)
    (hpad : PadAligned fmt) :
    ((fmt.map (fun kv => kv.1)).filter (fun n => !isPadName n)).zip
      (unpackFields be (fmt.map (fun kv => kv.2)) data) = rawDict be fmt data := by
  induction fmt generalizing data with
  | nil => rfl
  | cons kv fmt ih =>
      obtain ⟨k, f⟩ := kv
      by_cases hx : f.tag = 'x'
      · have hk : isPadName k = true := padName_of_aligned k f fmt hpad hx
        simp [List.filter_cons, hk, unpackFields, fieldValues, hx, rawDict,
          ih _ (padAligned_cons _ _ hpad)]
      · have hk : isPadName k = false := padName_false_of_aligned k f fmt hpad hx
        have hone : fragValueCount f = 1 := ((hpad (k, f) (by simp)).2) hx
        simp [List.filter_cons, hk, unpackFields, rawDict, hx,
          fieldValues_eq_oneValue be f _ hx hone, ih _ (padAligned_cons _ _ hpad)]

theorem keys_rawDict (be : Bool) (fmt : List (String × Frag)) (data : List Nat)
    (hpad : PadAligned fmt) :
    (rawDict be fmt data).map (fun kv => kv.1) =
      (fmt.map (fun kv => kv.1)).filter (fun n => !isPadName n) := by
  induction fmt generalizing data with
  | nil => rfl
  | cons kv fmt ih =>
      obtain ⟨k, f⟩ := kv
      by_cases hx : f.tag = 'x'
      · have hk : isPadName k = true := padName_of_aligned k f fmt hpad hx
        simp [rawDict, hx, List.filter_cons, hk, ih _ (padAligned_cons _ _ hpad)]
      · have hk : isPadName k = false := padName_false_of_aligned k f fmt hpad hx
        simp [rawDict, hx, List.filter_cons, hk, ih _ (padAligned_cons _ _ hpad)]

theorem values_rawDict (be : Bool) (fmt : List (String × Frag)) (data : List Nat)
    (hpad : PadAligned fmt) :
    (rawDict be fmt data).map (fun kv => kv.2) =
      unpackFields be (fmt.map (fun kv => kv.2)) data := by
  induction fmt generalizing data with
  | nil => rfl
  | cons kv fmt ih =>
      obtain ⟨k, f⟩ := kv
      by_cases hx : f.tag = 'x'
      · simp [rawDict, hx, unpackFields, fieldValues, ih _ (padAligned_cons _ _ hpad)]
      · have hone : fragValueCount f = 1 := ((hpad (k, f) (by simp)).2) hx
        simp [rawDict, hx, unpackFields, fieldValues_eq_oneValue be f _ hx hone,
          ih _ (padAligned_cons _ _ hpad)]

theorem applyHooks_nil (m : List (String × Value)) : applyHooks [] m = m := by
  simp [applyHooks, hookAt, idHook]

theorem keys_applyHooks (hs : List (String × Hook)) (m : List (String × Value)) :
    (applyHooks hs m).map (fun kv => kv.1) = m.map (fun kv => kv.1) := by
  simp [applyHooks]

theorem lookupV_applyHooks (hs : List (String × Hook)) (m : List (String × Value))
    (k : String) :
    lookupV (applyHooks hs m) k = (lookupV m k).map (hookAt hs k) := by
  induction m with
  | nil => rfl
  | cons kv m ih =>
      cases hk : (kv.1 == k) with
      | true =>
          have : kv.1 = k := by simpa using hk
          subst this
          simp [applyHooks, lookupV, List.find?_cons, hk]
      | false =>
          simpa [applyHooks, lookupV, List.find?_cons, hk] using ih

theorem lookupV_eq_none_of_not_mem (m : List (String × Value)) (k : String)
    (h : k ∉ m.map (fun kv => kv.1)) : lookupV m k = none := by
  induction m with
  | nil => rfl
  | cons kv m ih =>
      have h1 : kv.1 ≠ k := fun he => h (by simp [he])
      have h2 : k ∉ m.map (fun kv => kv.1) := fun hm => h (by simp [hm])
      have hk : (kv.1 == k) = false := by simpa using h1
      simpa [lookupV, List.find?_cons, hk] using ih h2

theorem lookupV_isSome_of_mem (m : List (String × Value)) (k : String)
    (h : k ∈ m.map (fun kv => kv.1)) : (lookupV m k).isSome := by
  obtain ⟨q, hq, hq2⟩ := List.mem_map.1 h
  have : (m.find? (fun p => p.1 == k)).isSome :=
    List.find?_isSome.2 ⟨q, hq, by simp [hq2]⟩
  simpa [lookupV] using this

/-- The lookup loop of `pack` succeeds on keys that are all present and
returns the looked-up values in key order. -/
theorem getVals_eq_map (out : List (String × Value)) (ks : List String)
    (hfound : ∀ k ∈ ks, k ∈ out.map (fun p => p.1)) :
    getVals out ks = .ok (ks.map (fun k => (lookupV out k).getD (.vint 0))) := by
  induction ks with
  | nil => rfl
  | cons k ks ih =>
      have hk := lookupV_isSome_of_mem out k (hfound k (by simp))
      obtain ⟨p, hp⟩ : ∃ p, out.find? (fun q => q.1 == k) = some p := by
        rcases ho : out.find? (fun q => q.1 == k) with _ | p
        · rw [lookupV, ho] at hk
          simp at hk
        · exact ⟨p, ho⟩
      rw [getVals, hp, ih (fun k2 h2 => hfound k2 (by simp [h2]))]
      simp only [lookupV, hp, Option.map_some, Option.getD_some, List.map_cons]
      rfl

/-- The lookup loop fails with a missing-field error as soon as some key is
absent. -/
theorem getVals_missing (out : List (String × Value)) (ks : List String)
    (h : ∃ k ∈ ks, k ∉ out.map (fun p => p.1)) :
    ∃ k2, getVals out ks = .error (.missingField k2) := by
  induction ks with
  | nil => simp at h
  | cons k ks ih =>
      rcases hp : out.find? (fun q => q.1 == k) with _ | p
      · exact ⟨k, by rw [getVals, hp]⟩
      · obtain ⟨k2, hk2, hnot⟩ := h
        have hk2' : k2 ∈ ks := by
          rcases List.mem_cons.1 hk2 with rfl | h2
          · exfalso
            apply hnot
            have hmem := List.mem_of_find?_eq_some hp
            have heq : p.1 = k2 := by simpa using List.find?_some hp
            exact List.mem_map.2 ⟨p, hmem, heq⟩
          · exact h2
        obtain ⟨k3, hk3⟩ := ih ⟨k2, hk2', hnot⟩
        refine ⟨k3, ?_⟩
        rw [getVals, hp]
        simp only [hk3, bind, Except.bind]

/-- Looking every key of a duplicate-free mapping back up returns its own
values in order. -/
theorem map_lookupV_self (out : List (String × Value))
    (hnd : (out.map (fun p => p.1)).Nodup) :
    (out.map (fun p => p.1)).map (fun k => (lookupV out k).getD (.vint 0)) =
      out.map (fun p => p.2) := by
  induction out with
  | nil => rfl
  | cons p out ih =>
      simp only [List.map_cons, List.nodup_cons] at hnd ⊢
      have hhead : (lookupV (p :: out) p.1).getD (Value.vint 0) = p.2 := by
        simp [lookupV, List.find?_cons]
      have hcongr : ∀ k ∈ out.map (fun p => p.1),
          (lookupV (p :: out) k).getD (Value.vint 0) =
          (lookupV out k).getD (Value.vint 0) := by
        intro k hkm
        have hne : p.1 ≠ k := fun he => hnd.1 (he ▸ hkm)
        have hk : (p.1 == k) = false := by simpa using hne
        simp [lookupV, List.find?_cons, hk]
      rw [hhead, List.map_congr_left hcongr, ih hnd.2]

/-- Under padding alignment, the number of struct values equals the number
of non-padding names. -/
theorem length_filter_eq_countFields (fmt : List (String × Frag))
    (hpad : PadAligned fmt) :
    ((fmt.map (fun kv => kv.1)).filter (fun n => !isPadName n)).length =
      countFields (fmt.map (fun kv => kv.2)) := by
  induction fmt with
  | nil => rfl
  | cons kv fmt ih =>
      obtain ⟨k, f⟩ := kv
      by_cases hx : f.tag = 'x'
      · have hk : isPadName k = true := padName_of_aligned k f fmt hpad hx
        have hcnt : fragValueCount f = 0 := by simp [fragValueCount, hx]
        have := ih (padAligned_cons _ _ hpad)
        simp only [countFields, List.map_cons, List.sum_cons] at this ⊢
        simp [List.filter_cons, hk, hcnt, this]
      · have hk : isPadName k = false := padName_false_of_aligned k f fmt hpad hx
        have hcnt : fragValueCount f = 1 := ((hpad (k, f) (by simp)).2) hx
        have := ih (padAligned_cons _ _ hpad)
        simp only [countFields, List.map_cons, List.sum_cons] at this ⊢
        simp [List.filter_cons, hk, hcnt, this]
        omega

/-! ## Lemmas: reader-level normal forms -/

theorem wf_padAligned (r : Reader) (h : WFReader r) : PadAligned r.format :=
  fun kv hkv => ⟨(h.2 kv hkv).2.1, (h.2 kv hkv).2.2⟩

theorem wf_fragConds (r : Reader) (h : WFReader r) :
    ∀ f ∈ r.format.map (fun kv => kv.2),
      validTag f.tag = true ∧ (f.tag ≠ 'x' → fragValueCount f = 1) := by
  intro f hf
  obtain ⟨kv, hkv, hrfl⟩ := List.mem_map.1 hf
  subst hrfl
  exact ⟨(h.2 kv hkv).1, (h.2 kv hkv).2.2⟩

/-- `unpack` on a correct-length buffer over a padding-aligned layout
returns the per-field mapping, massaged when hooks are present. -/
theorem unpack_nf (r : Reader) (data : List Nat)
    (hlen : data.length = sizeFields (r.format.map (fun kv => kv.2)))
    (hpad : PadAligned r.format) :
    r.unpack data = .ok
      (if r.massage_in.isEmpty then rawDict (isBE r.struct_bo) r.format data
       else applyHooks r.massage_in (rawDict (isBE r.struct_bo) r.format data)) := by
  have hz := zip_unpackFields (isBE r.struct_bo) r.format data hpad
  unfold Reader.unpack structUnpack
  rw [if_pos hlen]
  show Except.ok
      (if r.massage_in.isEmpty then
        (reqKeys r).zip (unpackFields (isBE r.struct_bo) (r.format.map (fun kv => kv.2)) data)
       else applyHooks r.massage_in
        ((reqKeys r).zip (unpackFields (isBE r.struct_bo) (r.format.map (fun kv => kv.2)) data)))
      = _
  rw [show (reqKeys r).zip
        (unpackFields (isBE r.struct_bo) (r.format.map (fun kv => kv.2)) data) =
      rawDict (isBE r.struct_bo) r.format data from hz]

/-- `pack`'s gather loop over a mapping whose keys are exactly the required
keys, duplicate-free, returns the mapping's own values. -/
theorem getVals_self (out : List (String × Value)) (ks : List String)
    (hkeys : out.map (fun kv => kv.1) = ks) (hnd : ks.Nodup) :
    getVals out ks = .ok (out.map (fun kv => kv.2)) := by
  subst hkeys
  rw [getVals_eq_map out _ (fun k hk => hk), map_lookupV_self out hnd]

theorem hookAt_nil (k : String) : hookAt [] k = idHook := rfl

theorem snd_applyHooks_applyHooks (hs1 hs2 : List (String × Hook))
    (m : List (String × Value))
    (hh : ∀ k v, hookAt hs2 k (hookAt hs1 k v) = v) :
    (applyHooks hs2 (applyHooks hs1 m)).map (fun kv => kv.2) =
      m.map (fun kv => kv.2) := by
  simp only [applyHooks, List.map_map]
  exact List.map_congr_left (fun kv _ => hh kv.1 kv.2)

theorem snd_applyHooks_identity (hs : List (String × Hook)) (m : List (String × Value))
    (hh : ∀ k v, hookAt hs k v = v) :
    (applyHooks hs m).map (fun kv => kv.2) = m.map (fun kv => kv.2) := by
  simp only [applyHooks, List.map_map]
  exact List.map_congr_left (fun kv _ => hh kv.1 kv.2)

/-- C1, amended: the byte round trip `pack (unpack b) = b` for a codec with
a well-formed layout, over a buffer of the compiled length whose per-field
slices are reversible (zero padding bytes, canonical bools, in-bounds
pascal length bytes), when each field's massage-out hook inverts its
massage-in hook. -/
theorem c1_roundtrip_amended (r : Reader) (data : List Nat)
    (hwf : WFReader r)
    (hlen : data.length = sizeFields (r.format.map (fun kv => kv.2)))
    (hb : ∀ b ∈ data, b < 256)
    (hrev : ReversibleData (r.format.map (fun kv => kv.2)) data = true)
    (hhooks : ∀ k v, hookAt r.massage_out k (hookAt r.massage_in k v) = v) :
    ∃ m, r.unpack data = .ok m ∧ r.pack m = .ok data := by
  have hpad := wf_padAligned r hwf
  have hfr := wf_fragConds r hwf
  have hnd : (reqKeys r).Nodup := (hwf.1).filter _
  have hkeys0 : (rawDict (isBE r.struct_bo) r.format data).map (fun kv => kv.1) =
      reqKeys r := keys_rawDict _ _ _ hpad
  have hvals0 : (rawDict (isBE r.struct_bo) r.format data).map (fun kv => kv.2) =
      unpackFields (isBE r.struct_bo) (r.format.map (fun kv => kv.2)) data :=
    values_rawDict _ _ _ hpad
  have hhid : r.massage_in.isEmpty = true → ∀ k v, hookAt r.massage_out k v = v := by
    intro he k v
    have hemp : r.massage_in = [] := List.isEmpty_iff.1 he
    have := hhooks k v
    rwa [hemp, hookAt_nil] at this
  refine ⟨if r.massage_in.isEmpty then rawDict (isBE r.struct_bo) r.format data
      else applyHooks r.massage_in (rawDict (isBE r.struct_bo) r.format data),
    unpack_nf r data hlen hpad, ?_⟩
  set m0 := rawDict (isBE r.struct_bo) r.format data with hm0
  set mIn := if r.massage_in.isEmpty then m0 else applyHooks r.massage_in m0 with hmIn
  have hkeysIn : mIn.map (fun kv => kv.1) = reqKeys r := by
    rw [hmIn]
    by_cases hmi : r.massage_in.isEmpty
    · rw [if_pos hmi]; exact hkeys0
    · rw [if_neg hmi, keys_applyHooks]; exact hkeys0
  set out := if r.massage_out.isEmpty then mIn else applyHooks r.massage_out mIn
    with hout
  have hkeysOut : out.map (fun kv => kv.1) = reqKeys r := by
    rw [hout]
    by_cases hmo : r.massage_out.isEmpty
    · rw [if_pos hmo]; exact hkeysIn
    · rw [if_neg hmo, keys_applyHooks]; exact hkeysIn
  have hsnd : out.map (fun kv => kv.2) = m0.map (fun kv => kv.2) := by
    rw [hout, hmIn]
    by_cases hmi : r.massage_in.isEmpty
    · by_cases hmo : r.massage_out.isEmpty
      · rw [if_pos hmi, if_pos hmo]
      · rw [if_pos hmi, if_neg hmo]
        exact snd_applyHooks_identity _ _ (hhid hmi)
    · by_cases hmo : r.massage_out.isEmpty
      · rw [if_neg hmi, if_pos hmo]
        have hemp : r.massage_out = [] := List.isEmpty_iff.1 hmo
        have : applyHooks r.massage_in m0 =
            applyHooks r.massage_out (applyHooks r.massage_in m0) := by
          rw [hemp, applyHooks_nil]
        rw [this]
        exact snd_applyHooks_applyHooks _ _ _ hhooks
      · rw [if_neg hmi, if_neg hmo]
        exact snd_applyHooks_applyHooks _ _ _ hhooks
  have hget : getVals out (reqKeys r) = .ok (out.map (fun kv => kv.2)) :=
    getVals_self out _ hkeysOut hnd
  have harity : (out.map (fun kv => kv.2)).length =
      countFields (r.format.map (fun kv => kv.2)) := by
    rw [hsnd, hvals0, length_unpackFields]
  have hpk : packFields (isBE r.struct_bo) (r.format.map (fun kv => kv.2))
      (out.map (fun kv => kv.2)) = some data := by
    rw [hsnd, hvals0]
    exact packFields_unpackFields _ _ _ hfr hlen hb hrev
  unfold Reader.pack
  show (getVals out (reqKeys r) >>= fun vals =>
      structPack r.struct_bo (r.format.map (fun kv => kv.2)) vals) = .ok data
  rw [hget]
  show structPack r.struct_bo (r.format.map (fun kv => kv.2))
      (out.map (fun kv => kv.2)) = .ok data
  unfold structPack
  rw [if_pos harity, hpk]

theorem wfVals_x (f : Frag) (fs : List Frag) (vs : List Value) (hx : f.tag = 'x') :
    wfVals (f :: fs) vs = wfVals fs vs := by
  cases vs <;> simp [wfVals, hx]

/-- Values picked per non-padding key are well-formed for the whole format
when each key's picked value is in range for its field. -/
theorem wfVals_pick (fmt : List (String × Frag)) (g : String → Value)
    (hpad : PadAligned fmt)
    (hv : ∀ k f, (k, f) ∈ fmt → f.tag ≠ 'x' → wfFragVal f (g k) = true) :
    wfVals (fmt.map (fun kv => kv.2))
      (((fmt.map (fun kv => kv.1)).filter (fun n => !isPadName n)).map g) = true := by
  induction fmt with
  | nil => rfl
  | cons kv fmt ih =>
      obtain ⟨k, f⟩ := kv
      have ihr := ih (padAligned_cons _ _ hpad)
        (fun k2 f2 h2 hx2 => hv k2 f2 (by simp [h2]) hx2)
      by_cases hx : f.tag = 'x'
      · have hk : isPadName k = true := padName_of_aligned k f fmt hpad hx
        simp only [List.map_cons, List.filter_cons, hk, Bool.not_true, if_false,
          Bool.false_eq_true, wfVals_x f _ _ hx]
        exact ihr
      · have hk : isPadName k = false := padName_false_of_aligned k f fmt hpad hx
        have hwv : wfFragVal f (g k) = true := hv k f (by simp) hx
        have hfc : ((k :: fmt.map (fun kv => kv.1)).filter (fun n => !isPadName n)) =
            k :: (fmt.map (fun kv => kv.1)).filter (fun n => !isPadName n) := by
          simp [List.filter_cons, hk]
        simp only [List.map_cons, hfc]
        simp only [List.map_cons, wfVals]
        rw [if_neg hx, hwv, ihr]
        rfl

theorem lookupV_zip_map (ks : List String) (g : String → Value) (k : String)
    (h : k ∈ ks) : lookupV (ks.zip (ks.map g)) k = some (g k) := by
  induction ks with
  | nil => simp at h
  | cons k0 ks ih =>
      by_cases he : k0 = k
      · subst he
        simp [lookupV, List.zip_cons_cons, List.find?_cons]
      · have hk : (k0 == k) = false := by simpa using he
        have hmem : k ∈ ks := by
          rcases List.mem_cons.1 h with h1 | h1
          · exact absurd h1.symm he
          · exact h1
        simpa [lookupV, List.zip_cons_cons, List.find?_cons, hk] using ih hmem

/-- C3, amended: the mapping round trip `unpack (pack m)` restores `m` (as
a mapping, i.e. pointwise lookups) for a well-formed layout, a mapping
whose keys are exactly the non-padding field names, whose massaged-out
values are in range for their fields, and whose massage-in hooks invert the
massage-out hooks on the supplied values. -/
theorem c3_map_roundtrip_amended (r : Reader) (m : List (String × Value))
    (hwf : WFReader r)
    (hperm : List.Perm (m.map (fun kv => kv.1)) (reqKeys r))
    (hvals : ∀ k f, (k, f) ∈ r.format → f.tag ≠ 'x' →
        ∃ v, lookupV m k = some v ∧ wfFragVal f (hookAt r.massage_out k v) = true)
    (hhooks : ∀ kv ∈ m, hookAt r.massage_in kv.1 (hookAt r.massage_out kv.1 kv.2) = kv.2) :
    ∃ bs m2, r.pack m = .ok bs ∧ r.unpack bs = .ok m2 ∧
      ∀ k, lookupV m2 k = lookupV m k := by
  have hpad := wf_padAligned r hwf
  have hfr := wf_fragConds r hwf
  have hnd : (reqKeys r).Nodup := (hwf.1).filter _
  set out := if r.massage_out.isEmpty then m else applyHooks r.massage_out m with hout
  have hlookOut : ∀ k, lookupV out k = (lookupV m k).map (hookAt r.massage_out k) := by
    intro k
    rw [hout]
    by_cases hmo : r.massage_out.isEmpty
    · rw [if_pos hmo]
      have hemp : r.massage_out = [] := List.isEmpty_iff.1 hmo
      rw [hemp, hookAt_nil]
      cases lookupV m k <;> rfl
    · rw [if_neg hmo]
      exact lookupV_applyHooks _ _ _
  have hkeysOut : out.map (fun kv => kv.1) = m.map (fun kv => kv.1) := by
    rw [hout]
    by_cases hmo : r.massage_out.isEmpty
    · rw [if_pos hmo]
    · rw [if_neg hmo]; exact keys_applyHooks _ _
  have hfound : ∀ k ∈ reqKeys r, k ∈ out.map (fun kv => kv.1) := by
    intro k hk
    rw [hkeysOut]
    exact hperm.mem_iff.2 hk
  set g : String → Value := fun k => (lookupV out k).getD (.vint 0) with hg
  have hget : getVals out (reqKeys r) = .ok ((reqKeys r).map g) :=
    getVals_eq_map out _ hfound
  have hgval : ∀ k v, lookupV m k = some v → g k = hookAt r.massage_out k v := by
    intro k v hkv
    rw [hg]
    simp [hlookOut k, hkv]
  have hwv : wfVals (r.format.map (fun kv => kv.2)) ((reqKeys r).map g) = true := by
    have := wfVals_pick r.format g hpad (fun k f hkf hx => ?_)
    · exact this
    · obtain ⟨v, hv1, hv2⟩ := hvals k f hkf hx
      rw [hgval k v hv1]
      exact hv2
  obtain ⟨bs, hpk, hlenb, hupk⟩ :=
    unpackFields_packFields (isBE r.struct_bo) (r.format.map (fun kv => kv.2))
      ((reqKeys r).map g) hfr hwv
  have harity : ((reqKeys r).map g).length = countFields (r.format.map (fun kv => kv.2)) := by
    rw [List.length_map]
    exact length_filter_eq_countFields r.format hpad
  have hpack : r.pack m = .ok bs := by
    unfold Reader.pack
    show (getVals out (reqKeys r) >>= fun vals =>
        structPack r.struct_bo (r.format.map (fun kv => kv.2)) vals) = .ok bs
    rw [hget]
    show structPack r.struct_bo (r.format.map (fun kv => kv.2)) ((reqKeys r).map g) = .ok bs
    unfold structPack
    rw [if_pos harity, hpk]
  have hm2 := unpack_nf r bs hlenb hpad
  refine ⟨bs, _, hpack, hm2, ?_⟩
  -- pointwise lookup equality
  have hraw : rawDict (isBE r.struct_bo) r.format bs =
      (reqKeys r).zip ((reqKeys r).map g) := by
    rw [← zip_unpackFields (isBE r.struct_bo) r.format bs hpad, hupk]
    rfl
  have hlookIn : ∀ k, lookupV
      (if r.massage_in.isEmpty then rawDict (isBE r.struct_bo) r.format bs
       else applyHooks r.massage_in (rawDict (isBE r.struct_bo) r.format bs)) k =
      (lookupV (rawDict (isBE r.struct_bo) r.format bs) k).map (hookAt r.massage_in k) := by
    intro k
    by_cases hmi : r.massage_in.isEmpty
    · rw [if_pos hmi]
      have hemp : r.massage_in = [] := List.isEmpty_iff.1 hmi
      rw [hemp, hookAt_nil]
      cases lookupV (rawDict (isBE r.struct_bo) r.format bs) k <;> rfl
    · rw [if_neg hmi]
      exact lookupV_applyHooks _ _ _
  intro k
  by_cases hk : k ∈ reqKeys r
  · have hkm : k ∈ m.map (fun kv => kv.1) := hperm.mem_iff.2 hk
    have hsome : (lookupV m k).isSome := lookupV_isSome_of_mem m k hkm
    obtain ⟨v, hv⟩ := Option.isSome_iff_exists.1 hsome
    have hmem : (k, v) ∈ m := by
      rcases hfind : m.find? (fun p => p.1 == k) with _ | p
      · rw [lookupV, hfind] at hv; simp at hv
      · have hp1 : p.1 = k := by simpa using List.find?_some hfind
        have hp2 : p.2 = v := by
          rw [lookupV, hfind] at hv
          simpa using hv
        have := List.mem_of_find?_eq_some hfind
        rwa [show p = (k, v) from Prod.ext hp1 hp2] at this
    rw [hlookIn k, hraw, lookupV_zip_map _ _ _ hk]
    simp only [Option.map_some']
    rw [hgval k v hv, hhooks (k, v) hmem, hv]
  · have h2 : k ∉ m.map (fun kv => kv.1) := fun hc => hk (hperm.mem_iff.1 hc)
    rw [hlookIn k, lookupV_eq_none_of_not_mem m k h2,
      lookupV_eq_none_of_not_mem _ k ?_]
    · rfl
    · rw [hraw]
      intro hc
      apply hk
      obtain ⟨q, hq, hq2⟩ := List.mem_map.1 hc
      have := List.of_mem_zip hq
      exact hq2 ▸ this.1

/-! ## Lemmas: positional analysis of a single field (for the custom-hook
claim) -/

theorem length_padTo (c : Nat) (bs : List Nat) : (padTo c bs).length = c := by
  simp only [padTo, List.length_append, List.length_take, List.length_replicate]
  omega

theorem length_packFields (be : Bool) (fs : List Frag) (vs : List Value) (bs : List Nat)
    (h : packFields be fs vs = some bs) : bs.length = sizeFields fs := by
  induction fs generalizing vs bs with
  | nil =>
      simp only [packFields, Option.some.injEq] at h
      subst h
      rfl
  | cons f fs ih =>
      simp only [packFields] at h
      cases hb : packFieldVals be f (vs.take (fragValueCount f)) with
      | none => simp [hb] at h
      | some b =>
          cases hr : packFields be fs (vs.drop (fragValueCount f)) with
          | none => simp [hb, hr] at h
          | some r =>
              simp only [hb, hr, Option.bind_eq_bind, Option.some_bind, Option.pure_def,
                Option.some.injEq] at h
              subst h
              simp only [List.length_append, length_packFieldVals be f _ b hb, ih _ r hr,
                sizeFields, List.map_cons, List.sum_cons]

theorem packFields_append (be : Bool) (fs1 fs2 : List Frag) (vs : List Value) :
    packFields be (fs1 ++ fs2) vs = (do
      let b1 ← packFields be fs1 (vs.take (countFields fs1))
      let b2 ← packFields be fs2 (vs.drop (countFields fs1))
      pure (b1 ++ b2)) := by
  induction fs1 generalizing vs with
  | nil =>
      simp only [List.nil_append, packFields, countFields, List.map_nil, List.sum_nil,
        List.take_zero, List.drop_zero, Option.bind_eq_bind, Option.some_bind]
      cases packFields be fs2 vs <;> rfl
  | cons f fs1 ih =>
      have h1 : (vs.take (fragValueCount f + countFields fs1)).take (fragValueCount f) =
          vs.take (fragValueCount f) := by
        rw [List.take_take, Nat.min_eq_left (Nat.le_add_right _ _)]
      have h2 : (vs.take (fragValueCount f + countFields fs1)).drop (fragValueCount f) =
          (vs.drop (fragValueCount f)).take (countFields fs1) := by
        rw [List.drop_take]
        congr 1
        omega
      have h3 : vs.drop (fragValueCount f + countFields fs1) =
          (vs.drop (fragValueCount f)).drop (countFields fs1) := by
        rw [List.drop_drop]
      have hcnt : countFields (f :: fs1) = fragValueCount f + countFields fs1 := by
        simp [countFields]
      simp only [List.cons_append, packFields, List.append_eq, ih, hcnt, h1, h2, h3]
      cases packFieldVals be f (vs.take (fragValueCount f)) with
      | none => rfl
      | some b =>
          cases packFields be fs1 ((vs.drop (fragValueCount f)).take (countFields fs1)) with
          | none => rfl
          | some r1 =>
              cases packFields be fs2 ((vs.drop (fragValueCount f)).drop (countFields fs1)) with
              | none => rfl
              | some b2 => simp [List.append_assoc]


/-! ## Lemmas: locating one custom (`Ns`-compiled) field inside a record -/

theorem lookupV_massaged (hs : List (String × Hook)) (m0 : List (String × Value))
    (k : String) :
    lookupV (if hs.isEmpty then m0 else applyHooks hs m0) k =
      (lookupV m0 k).map (hookAt hs k) := by
  by_cases he : hs.isEmpty
  · rw [if_pos he]
    have hemp : hs = [] := List.isEmpty_iff.1 he
    rw [hemp, hookAt_nil]
    cases lookupV m0 k <;> rfl
  · rw [if_neg he]
    exact lookupV_applyHooks _ _ _

theorem lookupV_append_left_none (m1 m2 : List (String × Value)) (k : String)
    (h : lookupV m1 k = none) : lookupV (m1 ++ m2) k = lookupV m2 k := by
  induction m1 with
  | nil => rfl
  | cons kv m1 ih =>
      cases hk : (kv.1 == k) with
      | true => simp [lookupV, List.find?_cons, hk] at h
      | false =>
          have h2 : lookupV m1 k = none := by
            simpa [lookupV, List.find?_cons, hk] using h
          simpa [lookupV, List.cons_append, List.find?_cons, hk] using ih h2

theorem rawDict_append (be : Bool) (pre rest : List (String × Frag)) (data : List Nat) :
    rawDict be (pre ++ rest) data =
      rawDict be pre data ++
        rawDict be rest (data.drop (sizeFields (pre.map (fun kv => kv.2)))) := by
  induction pre generalizing data with
  | nil => simp [rawDict, sizeFields]
  | cons kv pre ih =>
      obtain ⟨k, f⟩ := kv
      simp only [List.cons_append, rawDict, List.append_eq, ih, List.append_assoc,
        List.map_cons, sizeFields, List.map_map, List.sum_cons, List.drop_drop]

theorem padAligned_append_left (pre rest : List (String × Frag))
    (h : PadAligned (pre ++ rest)) : PadAligned pre :=
  fun q hq => h q (List.mem_append.2 (Or.inl hq))

theorem padAligned_append_right (pre rest : List (String × Frag))
    (h : PadAligned (pre ++ rest)) : PadAligned rest :=
  fun q hq => h q (List.mem_append.2 (Or.inr hq))

theorem lookupV_rawDict_head (be : Bool) (k : String) (f : Frag)
    (post : List (String × Frag)) (data : List Nat) (hx : f.tag ≠ 'x') :
    lookupV (rawDict be ((k, f) :: post) data) k =
      some (oneValue be f (data.take (fragSize f))) := by
  simp [rawDict, hx, lookupV, List.find?_cons]

theorem lookupV_rawDict_notmem (be : Bool) (pre : List (String × Frag)) (data : List Nat)
    (k : String) (hpad : PadAligned pre) (hk : k ∉ pre.map (fun kv => kv.1)) :
    lookupV (rawDict be pre data) k = none := by
  apply lookupV_eq_none_of_not_mem
  rw [keys_rawDict be pre data hpad]
  intro hc
  exact hk (List.mem_of_mem_filter hc)

/-- C5(a): `unpack` hands the field's massage-in hook (the custom type's
`parse_TYPE`) exactly the raw `N`-byte slice at the field's offset. -/
theorem c5_unpack_slice (r : Reader) (pre post : List (String × Frag)) (k : String)
    (N : Nat) (hfmt : r.format = pre ++ (k, ⟨some N, 's'⟩) :: post)
    (hwf : WFReader r) (data : List Nat)
    (hlen : data.length = sizeFields (r.format.map (fun kv => kv.2))) :
    ∃ m, r.unpack data = .ok m ∧
      lookupV m k = some (hookAt r.massage_in k
        (.vbytes ((data.drop (sizeFields (pre.map (fun kv => kv.2)))).take N))) := by
  have hpad := wf_padAligned r hwf
  have hpadF := hpad
  rw [hfmt] at hpadF
  have hpadPre : PadAligned pre := padAligned_append_left _ _ hpadF
  have hnd := hwf.1
  rw [hfmt] at hnd
  simp only [List.map_append, List.map_cons] at hnd
  obtain ⟨hndPre, hndKP, hdisj⟩ := List.nodup_append.1 hnd
  have hkpre : k ∉ pre.map (fun kv => kv.1) := fun hc =>
    hdisj hc (List.mem_cons_self _ _)
  have hxs : (⟨some N, 's'⟩ : Frag).tag ≠ 'x' := by
    intro h
    have h2 : ('s' : Char) = 'x' := h
    exact absurd h2 (by decide)
  refine ⟨_, unpack_nf r data hlen hpad, ?_⟩
  rw [lookupV_massaged]
  have hraw : lookupV (rawDict (isBE r.struct_bo) r.format data) k =
      some (oneValue (isBE r.struct_bo) ⟨some N, 's'⟩
        ((data.drop (sizeFields (pre.map (fun kv => kv.2)))).take
          (fragSize ⟨some N, 's'⟩))) := by
    rw [hfmt, rawDict_append,
      lookupV_append_left_none _ _ _ (lookupV_rawDict_notmem _ _ _ _ hpadPre hkpre),
      lookupV_rawDict_head _ _ _ _ _ hxs]
  rw [hraw]
  have hsz : fragSize (⟨some N, 's'⟩ : Frag) = N := by
    unfold fragSize
    rw [if_pos (Or.inr (Or.inl rfl))]
    rfl
  rw [hsz]
  rfl

/-- C5(b), amended: when the massage-out hook (the custom type's
`unparse_TYPE`) returns a byte string of any length, `pack` still succeeds,
and the field's `N` bytes in the output are the hook result zero-padded or
truncated to width `N` by the scalar facility's `s` packing — `pack` does
not fail on a width mismatch. -/
theorem c5_pack_pads (r : Reader) (pre post : List (String × Frag)) (k : String)
    (N : Nat) (hfmt : r.format = pre ++ (k, ⟨some N, 's'⟩) :: post)
    (hwf : WFReader r) (m : List (String × Value)) (v : Value) (bsv : List Nat)
    (hperm : List.Perm (m.map (fun kv => kv.1)) (reqKeys r))
    (hkv : lookupV m k = some v)
    (hvout : hookAt r.massage_out k v = .vbytes bsv)
    (hvals : ∀ k2 f2, (k2, f2) ∈ r.format → f2.tag ≠ 'x' → k2 ≠ k →
      ∃ v2, lookupV m k2 = some v2 ∧ wfFragVal f2 (hookAt r.massage_out k2 v2) = true) :
    ∃ out, r.pack m = .ok out ∧
      out.length = sizeFields (r.format.map (fun kv => kv.2)) ∧
      (out.drop (sizeFields (pre.map (fun kv => kv.2)))).take N = padTo N bsv := by
  have hpad := wf_padAligned r hwf
  have hpadF := hpad
  rw [hfmt] at hpadF
  have hpadPre : PadAligned pre := padAligned_append_left _ _ hpadF
  have hpadPost : PadAligned post :=
    padAligned_cons _ _ (padAligned_append_right _ _ hpadF)
  have hxs : (⟨some N, 's'⟩ : Frag).tag ≠ 'x' := by
    intro h
    have h2 : ('s' : Char) = 'x' := h
    exact absurd h2 (by decide)
  have hmemk : (k, (⟨some N, 's'⟩ : Frag)) ∈ r.format := by
    rw [hfmt]
    exact List.mem_append.2 (Or.inr (List.mem_cons_self _ _))
  have hkpad : isPadName k = false := by
    cases hpn : isPadName k
    · rfl
    · exact absurd (((hpad _ hmemk).1).1 hpn) hxs
  have hnd := hwf.1
  rw [hfmt] at hnd
  simp only [List.map_append, List.map_cons] at hnd
  obtain ⟨hndPre, hndKP, hdisj⟩ := List.nodup_append.1 hnd
  have hkpre : k ∉ pre.map (fun kv => kv.1) := fun hc =>
    hdisj hc (List.mem_cons_self _ _)
  have hkpost : k ∉ post.map (fun kv => kv.1) := (List.nodup_cons.1 hndKP).1
  -- the required-key list splits around the custom field
  have hreq : reqKeys r =
      ((pre.map (fun kv => kv.1)).filter (fun n => !isPadName n)) ++
        k :: ((post.map (fun kv => kv.1)).filter (fun n => !isPadName n)) := by
    unfold reqKeys
    rw [hfmt]
    simp only [List.map_append, List.map_cons, List.filter_append, List.filter_cons,
      hkpad, Bool.not_false, if_true]
  -- the massaged mapping and per-key value choice
  set out0 := if r.massage_out.isEmpty then m else applyHooks r.massage_out m with hout0
  have hkeysOut : out0.map (fun kv => kv.1) = m.map (fun kv => kv.1) := by
    rw [hout0]
    by_cases hmo : r.massage_out.isEmpty
    · rw [if_pos hmo]
    · rw [if_neg hmo]
      exact keys_applyHooks _ _
  have hfound : ∀ k2 ∈ reqKeys r, k2 ∈ out0.map (fun kv => kv.1) := by
    intro k2 hk2
    rw [hkeysOut]
    exact hperm.mem_iff.2 hk2
  set g : String → Value := fun k2 => (lookupV out0 k2).getD (.vint 0) with hg
  have hget : getVals out0 (reqKeys r) = .ok ((reqKeys r).map g) :=
    getVals_eq_map out0 _ hfound
  have hlookOut : ∀ k2, lookupV out0 k2 = (lookupV m k2).map (hookAt r.massage_out k2) := by
    intro k2
    rw [hout0]
    exact lookupV_massaged _ _ _
  have hgk : g k = .vbytes bsv := by
    rw [hg]
    simp only [hlookOut k, hkv, Option.map_some', hvout, Option.getD_some]
  have hgval : ∀ k2 v2, lookupV m k2 = some v2 → g k2 = hookAt r.massage_out k2 v2 := by
    intro k2 v2 hkv2
    rw [hg]
    simp [hlookOut k2, hkv2]
  -- well-formed value segments on either side of the custom field
  have hfrPre : ∀ f ∈ pre.map (fun kv => kv.2),
      validTag f.tag = true ∧ (f.tag ≠ 'x' → fragValueCount f = 1) := by
    intro f hf
    obtain ⟨kv, hkvm, hrfl⟩ := List.mem_map.1 hf
    subst hrfl
    have hm : kv ∈ r.format := by
      rw [hfmt]
      exact List.mem_append.2 (Or.inl hkvm)
    exact ⟨(hwf.2 kv hm).1, (hwf.2 kv hm).2.2⟩
  have hfrPost : ∀ f ∈ post.map (fun kv => kv.2),
      validTag f.tag = true ∧ (f.tag ≠ 'x' → fragValueCount f = 1) := by
    intro f hf
    obtain ⟨kv, hkvm, hrfl⟩ := List.mem_map.1 hf
    subst hrfl
    have hm : kv ∈ r.format := by
      rw [hfmt]
      exact List.mem_append.2 (Or.inr (List.mem_cons_of_mem _ hkvm))
    exact ⟨(hwf.2 kv hm).1, (hwf.2 kv hm).2.2⟩
  have hwvPre : wfVals (pre.map (fun kv => kv.2))
      (((pre.map (fun kv => kv.1)).filter (fun n => !isPadName n)).map g) = true := by
    apply wfVals_pick pre g hpadPre
    intro k2 f2 h2 hx2
    have hne : k2 ≠ k := by
      intro he
      subst he
      exact hkpre (List.mem_map.2 ⟨(k2, f2), h2, rfl⟩)
    obtain ⟨v2, hv2l, hv2w⟩ := hvals k2 f2
      (by rw [hfmt]; exact List.mem_append.2 (Or.inl h2)) hx2 hne
    rw [hgval k2 v2 hv2l]
    exact hv2w
  have hwvPost : wfVals (post.map (fun kv => kv.2))
      (((post.map (fun kv => kv.1)).filter (fun n => !isPadName n)).map g) = true := by
    apply wfVals_pick post g hpadPost
    intro k2 f2 h2 hx2
    have hne : k2 ≠ k := by
      intro he
      subst he
      exact hkpost (List.mem_map.2 ⟨(k2, f2), h2, rfl⟩)
    obtain ⟨v2, hv2l, hv2w⟩ := hvals k2 f2
      (by rw [hfmt]; exact List.mem_append.2 (Or.inr (List.mem_cons_of_mem _ h2))) hx2 hne
    rw [hgval k2 v2 hv2l]
    exact hv2w
  obtain ⟨b1, hpk1, hlen1, _⟩ :=
    unpackFields_packFields (isBE r.struct_bo) (pre.map (fun kv => kv.2)) _ hfrPre hwvPre
  obtain ⟨b3, hpk3, hlen3, _⟩ :=
    unpackFields_packFields (isBE r.struct_bo) (post.map (fun kv => kv.2)) _ hfrPost hwvPost
  -- assemble the full pack run
  have hcntPre : countFields (pre.map (fun kv => kv.2)) =
      (((pre.map (fun kv => kv.1)).filter (fun n => !isPadName n)).map g).length := by
    rw [List.length_map]
    exact (length_filter_eq_countFields pre hpadPre).symm
  have hvals1 : (reqKeys r).map g =
      (((pre.map (fun kv => kv.1)).filter (fun n => !isPadName n)).map g) ++
        g k :: (((post.map (fun kv => kv.1)).filter (fun n => !isPadName n)).map g) := by
    rw [hreq]
    simp [List.map_append]
  have hcnt1 : fragValueCount (⟨some N, 's'⟩ : Frag) = 1 := by
    unfold fragValueCount
    rw [if_neg hxs, if_pos (Or.inl rfl)]
  have hpkmid : packFieldVals (isBE r.struct_bo) ⟨some N, 's'⟩ [Value.vbytes bsv] =
      some (padTo N bsv) := by
    unfold packFieldVals
    rw [if_neg hxs, if_pos rfl]
    rfl
  have hmid : packFields (isBE r.struct_bo)
      ((⟨some N, 's'⟩ : Frag) :: post.map (fun kv => kv.2))
      (g k :: ((post.map (fun kv => kv.1)).filter (fun n => !isPadName n)).map g) =
      some (padTo N bsv ++ b3) := by
    simp only [packFields, hcnt1, List.take_succ_cons, List.take_zero,
      List.drop_succ_cons, List.drop_zero, hgk, hpkmid, hpk3]
    rfl
  have hpkFull : packFields (isBE r.struct_bo) (r.format.map (fun kv => kv.2))
      ((reqKeys r).map g) = some (b1 ++ (padTo N bsv ++ b3)) := by
    rw [hfmt]
    simp only [List.map_append, List.map_cons]
    rw [packFields_append, hvals1, hcntPre, List.take_left, List.drop_left, hpk1, hmid]
    rfl
  have harity : ((reqKeys r).map g).length =
      countFields (r.format.map (fun kv => kv.2)) := by
    rw [List.length_map]
    exact length_filter_eq_countFields r.format hpad
  refine ⟨b1 ++ (padTo N bsv ++ b3), ?_, ?_, ?_⟩
  · unfold Reader.pack
    show (getVals out0 (reqKeys r) >>= fun vals =>
        structPack r.struct_bo (r.format.map (fun kv => kv.2)) vals) = _
    rw [hget]
    show structPack r.struct_bo (r.format.map (fun kv => kv.2)) ((reqKeys r).map g) = _
    unfold structPack
    rw [if_pos harity, hpkFull]
  · exact length_packFields _ _ _ _ hpkFull
  · rw [List.drop_left' hlen1, List.take_left' (length_padTo N bsv)]

/-! ## Lemmas: lookup congruences for the error-handling claims -/

theorem getVals_eq_of_lookup (out1 out2 : List (String × Value)) (ks : List String)
    (h : ∀ k ∈ ks, lookupV out1 k = lookupV out2 k) :
    getVals out1 ks = getVals out2 ks := by
  induction ks with
  | nil => rfl
  | cons k ks ih =>
      have hk := h k (by simp)
      have ihr := ih (fun k2 h2 => h k2 (by simp [h2]))
      cases h1 : out1.find? (fun p => p.1 == k) with
      | none =>
          cases h2 : out2.find? (fun p => p.1 == k) with
          | none => rw [getVals, getVals, h1, h2]
          | some q =>
              rw [lookupV, lookupV, h1, h2] at hk
              simp at hk
      | some p =>
          cases h2 : out2.find? (fun p => p.1 == k) with
          | none =>
              rw [lookupV, lookupV, h1, h2] at hk
              simp at hk
          | some q =>
              have hval : p.2 = q.2 := by
                rw [lookupV, lookupV, h1, h2] at hk
                simpa using hk
              rw [getVals, getVals, h1, h2, ihr]
              simp [hval]

theorem lookupV_filter (m : List (String × Value)) (q : String × Value → Bool)
    (k : String) (hk : ∀ kv ∈ m, kv.1 = k → q kv = true) :
    lookupV (m.filter q) k = lookupV m k := by
  induction m with
  | nil => rfl
  | cons kv m ih =>
      have ihr := ih (fun kv2 h2 he => hk kv2 (by simp [h2]) he)
      cases hek : (kv.1 == k) with
      | true =>
          have he : kv.1 = k := by simpa using hek
          have hq2 := hk kv (by simp) he
          rw [List.filter_cons, hq2]
          simp [lookupV, List.find?_cons, hek]
      | false =>
          rw [List.filter_cons]
          cases hq : q kv with
          | true =>
              simpa [lookupV, List.find?_cons, hek] using ihr
          | false =>
              simp only [Bool.false_eq_true, if_false]
              rw [ihr]
              simp [lookupV, List.find?_cons, hek]

theorem lookupV_append_right_notmem (m1 m2 : List (String × Value)) (k : String)
    (h : k ∉ m2.map (fun kv => kv.1)) : lookupV (m1 ++ m2) k = lookupV m1 k := by
  induction m1 with
  | nil =>
      rw [List.nil_append]
      rw [lookupV_eq_none_of_not_mem m2 k h]
      rfl
  | cons kv m1 ih =>
      cases hek : (kv.1 == k) with
      | true => simp [lookupV, List.cons_append, List.find?_cons, hek]
      | false => simpa [lookupV, List.cons_append, List.find?_cons, hek] using ih

/-- C6: `unpack` on a buffer whose length differs from the compiled total
record length fails with the length-mismatch error, for longer and shorter
buffers alike; a buffer of exactly the compiled length is never rejected
for length reasons. -/
theorem c6_length_enforcement (r : Reader) (data : List Nat) :
    (data.length ≠ sizeFields (r.format.map (fun kv => kv.2)) →
      r.unpack data = .error .lengthMismatch) ∧
    (data.length = sizeFields (r.format.map (fun kv => kv.2)) →
      ∃ m, r.unpack data = .ok m) := by
  constructor
  · intro h
    unfold Reader.unpack structUnpack
    rw [if_neg h]
    rfl
  · intro h
    unfold Reader.unpack structUnpack
    rw [if_pos h]
    exact ⟨_, rfl⟩

/-- C7: `pack` fails with a missing-field error exactly when the mapping
lacks a value for some required (non-padding) field; when every required
field is present the error class missing-field is never raised. -/
theorem c7_missing_field (r : Reader) (m : List (String × Value)) :
    ((∃ k ∈ reqKeys r, k ∉ m.map (fun kv => kv.1)) →
      ∃ k2, r.pack m = .error (.missingField k2)) ∧
    ((∀ k ∈ reqKeys r, k ∈ m.map (fun kv => kv.1)) →
      ∀ k2, r.pack m ≠ .error (.missingField k2)) := by
  set out := if r.massage_out.isEmpty then m else applyHooks r.massage_out m with hout
  have hkeysOut : out.map (fun kv => kv.1) = m.map (fun kv => kv.1) := by
    rw [hout]
    by_cases hmo : r.massage_out.isEmpty
    · rw [if_pos hmo]
    · rw [if_neg hmo]
      exact keys_applyHooks _ _
  constructor
  · intro h
    obtain ⟨k, hk, hnot⟩ := h
    obtain ⟨k2, hk2⟩ := getVals_missing out (reqKeys r)
      ⟨k, hk, by rw [hkeysOut]; exact hnot⟩
    refine ⟨k2, ?_⟩
    unfold Reader.pack
    show (getVals out (reqKeys r) >>= fun vals =>
        structPack r.struct_bo (r.format.map (fun kv => kv.2)) vals) = _
    rw [hk2]
    rfl
  · intro h k2
    have hfound : ∀ k ∈ reqKeys r, k ∈ out.map (fun p => p.1) := by
      intro k hk
      rw [hkeysOut]
      exact h k hk
    have hget := getVals_eq_map out (reqKeys r) hfound
    unfold Reader.pack
    show (getVals out (reqKeys r) >>= fun vals =>
        structPack r.struct_bo (r.format.map (fun kv => kv.2)) vals) ≠ _
    rw [hget]
    show structPack r.struct_bo (r.format.map (fun kv => kv.2)) _ ≠ _
    unfold structPack
    by_cases harr : ((reqKeys r).map
        (fun k => (lookupV out k).getD (.vint 0))).length =
        countFields (r.format.map (fun kv => kv.2))
    · rw [if_pos harr]
      cases hpf : packFields (isBE r.struct_bo) (r.format.map (fun kv => kv.2))
          ((reqKeys r).map (fun k => (lookupV out k).getD (.vint 0))) with
      | none => simp [hpf]
      | some bs => simp [hpf]
    · rw [if_neg harr]
      simp

/-- C8: keys of the mapping `unpack` returns never carry the reserved
`padding` name prefix, and entries for `padding`-named fields are
irrelevant to `pack` — filtering them out of the input mapping leaves
`pack`'s result unchanged. -/
theorem c8_padding_omission (r : Reader) :
    (∀ (data : List Nat) (m : List (String × Value)), r.unpack data = .ok m →
      ∀ k ∈ m.map (fun kv => kv.1), isPadName k = false) ∧
    (∀ m : List (String × Value),
      r.pack (m.filter (fun kv => !isPadName kv.1)) = r.pack m) := by
  constructor
  · intro data m hok k hk
    unfold Reader.unpack structUnpack at hok
    by_cases hlen : data.length = sizeFields (r.format.map (fun kv => kv.2))
    · rw [if_pos hlen] at hok
      have hm : m = (if r.massage_in.isEmpty then
          (reqKeys r).zip (unpackFields (isBE r.struct_bo)
            (r.format.map (fun kv => kv.2)) data)
          else applyHooks r.massage_in ((reqKeys r).zip (unpackFields (isBE r.struct_bo)
            (r.format.map (fun kv => kv.2)) data))) := by
        have : Except.ok (ε := Err) (if r.massage_in.isEmpty then
            (reqKeys r).zip (unpackFields (isBE r.struct_bo)
              (r.format.map (fun kv => kv.2)) data)
            else applyHooks r.massage_in ((reqKeys r).zip (unpackFields (isBE r.struct_bo)
              (r.format.map (fun kv => kv.2)) data))) = .ok m := hok
        exact (Except.ok.inj this).symm
      have hkz : k ∈ ((reqKeys r).zip (unpackFields (isBE r.struct_bo)
          (r.format.map (fun kv => kv.2)) data)).map (fun kv => kv.1) := by
        rw [hm] at hk
        by_cases hmi : r.massage_in.isEmpty
        · rwa [if_pos hmi] at hk
        · rw [if_neg hmi, keys_applyHooks] at hk
          exact hk
      obtain ⟨q, hq, hq1⟩ := List.mem_map.1 hkz
      have hreq : k ∈ reqKeys r := hq1 ▸ (List.of_mem_zip hq).1
      have := (List.mem_filter.1 hreq).2
      simpa using this
    · rw [if_neg hlen] at hok
      exact absurd hok (by simp [bind, Except.bind])
  · intro m
    unfold Reader.pack
    show (getVals (if r.massage_out.isEmpty then m.filter (fun kv => !isPadName kv.1)
        else applyHooks r.massage_out (m.filter (fun kv => !isPadName kv.1)))
        (reqKeys r) >>= fun vals =>
        structPack r.struct_bo (r.format.map (fun kv => kv.2)) vals) =
      (getVals (if r.massage_out.isEmpty then m
        else applyHooks r.massage_out m) (reqKeys r) >>= fun vals =>
        structPack r.struct_bo (r.format.map (fun kv => kv.2)) vals)
    rw [getVals_eq_of_lookup
      (if r.massage_out.isEmpty then m.filter (fun kv => !isPadName kv.1)
       else applyHooks r.massage_out (m.filter (fun kv => !isPadName kv.1)))
      (if r.massage_out.isEmpty then m else applyHooks r.massage_out m)
      (reqKeys r) ?_]
    intro k hk
    have hkpad : isPadName k = false := by
      have := (List.mem_filter.1 hk).2
      simpa using this
    rw [lookupV_massaged, lookupV_massaged,
      lookupV_filter m _ k (fun kv _ he => by rw [he, hkpad]; rfl)]

/-- C10: entries of the input mapping whose keys are not field names of the
layout are ignored by `pack`: appending them neither fails nor changes the
result. -/
theorem c10_extra_keys_ignored (r : Reader) (m extra : List (String × Value))
    (hextra : ∀ k ∈ extra.map (fun kv => kv.1), k ∉ r.format.map (fun kv => kv.1)) :
    r.pack (m ++ extra) = r.pack m := by
  unfold Reader.pack
  show (getVals (if r.massage_out.isEmpty then m ++ extra
      else applyHooks r.massage_out (m ++ extra)) (reqKeys r) >>= fun vals =>
      structPack r.struct_bo (r.format.map (fun kv => kv.2)) vals) =
    (getVals (if r.massage_out.isEmpty then m
      else applyHooks r.massage_out m) (reqKeys r) >>= fun vals =>
      structPack r.struct_bo (r.format.map (fun kv => kv.2)) vals)
  rw [getVals_eq_of_lookup
    (if r.massage_out.isEmpty then m ++ extra
     else applyHooks r.massage_out (m ++ extra))
    (if r.massage_out.isEmpty then m else applyHooks r.massage_out m)
    (reqKeys r) ?_]
  intro k hk
  have hknotextra : k ∉ extra.map (fun kv => kv.1) := by
    intro hc
    exact hextra k hc ((List.mem_filter.1 hk).1)
  rw [lookupV_massaged, lookupV_massaged, lookupV_append_right_notmem m extra k hknotextra]

/-! ## Lemmas: `statements.sort()` is order-insensitive -/

theorem pyInsert_eq_orderedInsert (x : Nat × String) (l : List (Nat × String)) :
    pyInsert x l = List.orderedInsert stmtRel x l := by
  induction l with
  | nil => rfl
  | cons y ys ih =>
      by_cases h : stmtLE x y = true
      · rw [pyInsert, List.orderedInsert, if_pos h, if_pos (show stmtRel x y from h)]
      · rw [pyInsert, List.orderedInsert, if_neg h,
          if_neg (show ¬ stmtRel x y from h), ih]

theorem pySort_eq_insertionSort (l : List (Nat × String)) :
    pySort l = List.insertionSort stmtRel l := by
  unfold pySort
  induction l with
  | nil => rfl
  | cons x xs ih =>
      rw [List.foldr_cons, ih, List.insertionSort, pyInsert_eq_orderedInsert]

theorem pySort_eq_of_perm (l1 l2 : List (Nat × String)) (hp : l1.Perm l2) :
    pySort l1 = pySort l2 := by
  rw [pySort_eq_insertionSort, pySort_eq_insertionSort]
  exact List.eq_of_perm_of_sorted
    ((List.perm_insertionSort _ l1).trans (hp.trans (List.perm_insertionSort _ l2).symm))
    (List.sorted_insertionSort _ l1)
    (List.sorted_insertionSort _ l2)

/-- C9: compiling offset statements through the gap-filling entry point
gives the same result however the statements were ordered in the source
text — in particular the same as ascending offset order — whenever the
offsets are pairwise distinct. -/
theorem c9_offset_order_stability (header : String)
    (stmts1 stmts2 : List (Nat × String))
    (hnd : (stmts1.map Prod.fst).Nodup) (hperm : stmts1.Perm stmts2) :
    fromOffsetsCore header stmts1 = fromOffsetsCore header stmts2 := by
  have hsort : pySort stmts1 = pySort stmts2 := pySort_eq_of_perm _ _ hperm
  cases h1 : stmts1 with
  | nil =>
      cases h2 : stmts2 with
      | nil => rfl
      | cons b l2 =>
          rw [h1, h2] at hperm
          exact absurd hperm.symm (by simp)
  | cons a l1 =>
      cases h2 : stmts2 with
      | nil =>
          rw [h1, h2] at hperm
          exact absurd hperm (by simp)
      | cons b l2 =>
          rw [h1, h2] at hsort
          simp only [fromOffsetsCore, hsort]

/-! ## The remaining claims: custom fields, the two DSL entry points, and
the concrete instantiations -/

/-- C5, amended: a field compiled from a custom (user-defined) type with
count `N` is an `N`-byte opaque slice — `unpack` hands the massage-in hook
exactly the field's raw `N` bytes; but a massage-out hook result of the
wrong width does not make `pack` fail: the scalar facility's `s` packing
silently zero-pads or truncates it to `N` bytes. -/
theorem c5_custom_field_amended (r : Reader) (pre post : List (String × Frag))
    (k : String) (N : Nat)
    (hfmt : r.format = pre ++ (k, ⟨some N, 's'⟩) :: post) (hwf : WFReader r) :
    (∀ data : List Nat, data.length = sizeFields (r.format.map (fun kv => kv.2)) →
      ∃ m, r.unpack data = .ok m ∧
        lookupV m k = some (hookAt r.massage_in k
          (.vbytes ((data.drop (sizeFields (pre.map (fun kv => kv.2)))).take N)))) ∧
    (∀ (m : List (String × Value)) (v : Value) (bsv : List Nat),
      List.Perm (m.map (fun kv => kv.1)) (reqKeys r) →
      lookupV m k = some v →
      hookAt r.massage_out k v = .vbytes bsv →
      (∀ k2 f2, (k2, f2) ∈ r.format → f2.tag ≠ 'x' → k2 ≠ k →
        ∃ v2, lookupV m k2 = some v2 ∧
          wfFragVal f2 (hookAt r.massage_out k2 v2) = true) →
      ∃ out, r.pack m = .ok out ∧
        out.length = sizeFields (r.format.map (fun kv => kv.2)) ∧
        (out.drop (sizeFields (pre.map (fun kv => kv.2)))).take N = padTo N bsv) :=
  ⟨fun data hlen => c5_unpack_slice r pre post k N hfmt hwf data hlen,
   fun m v bsv hperm hkv hvout hvals =>
     c5_pack_pads r pre post k N hfmt hwf m v bsv hperm hkv hvout hvals⟩

/-- C2: the offset-DSL text with fields at 0x00, 0x04, 0x24 and an EOF
sentinel at 0x50 compiles, through the gap-filling entry point, to the same
byte order and the same ordered field list as the direct plain-DSL text,
with the two synthesized gap fields of sixteen and thirty-eight bytes in
the third and fifth positions. -/
theorem c2_offset_gap_equivalence :
    (fromOffsetsText
        "<\n0x00 Uint32 score\n0x04 string[16] name\n0x24 options[6] options\n0x50 EOF").map
        (fun r => (r.byte_order, r.struct_bo, r.format)) =
      (compileString
        "<\nUint32 score\nstring[16] name\nunknown[16] unk1\noptions[6] options\nunknown[38] unk2"
        (fun _ => none)).map
        (fun r => (r.byte_order, r.struct_bo, r.format)) ∧
    (fromOffsetsText
        "<\n0x00 Uint32 score\n0x04 string[16] name\n0x24 options[6] options\n0x50 EOF").map
        (fun r => r.format.map (fun kv => (kv.1, kv.2.code))) =
      .ok [("score", "I"), ("name", "16s"), ("unk1", "16s"),
           ("options", "6s"), ("unk2", "38s")] :=
  ⟨rfl, rfl⟩

/-- In the package module, the struct format string is always the parsed
byte order followed by the fragment codes in field order. -/
theorem compileString_fmt_prefix (src : String) (env : String → Option Hook)
    (r : Reader) (h : compileString src env = .ok r) :
    r.struct_bo = r.byte_order ∧
    r.fmt = String.singleton r.byte_order ++
      String.join (r.format.map (fun kv => kv.2.code)) := by
  unfold compileString at h
  cases hst : compileLinesGo env (splitLines src) ⟨[], [], [], '<'⟩ with
  | error e =>
      rw [hst] at h
      exact absurd h (by simp [bind, Except.bind])
  | ok st =>
      rw [hst] at h
      have he : mkReader st st.byte_order = r := by
        simpa [bind, Except.bind] using h
      subst he
      exact ⟨rfl, rfl⟩

/-- C4: on the source `">\nUint16 a"`, the package module parses the
byte-order statement into the layout and prefixes it to the format string
(`">H"`; `"<"` by default when the source has no byte-order line), while
the legacy root module raises on the same source — its grammar's start
symbol is `variable`, so the byte-order line is a syntax error
(`ValueError`) before any byte order could be recorded — and without a
byte-order line it can only ever produce the constructor default. -/
theorem c4_byte_order_bug :
    ((compileString ">\nUint16 a" (fun _ => none)).map
        (fun r => (r.byte_order, r.fmt)) = .ok ('>', ">H")) ∧
    ((compileString "Uint16 a" (fun _ => none)).map
        (fun r => (r.byte_order, r.fmt)) = .ok ('<', "<H")) ∧
    (legacyCompile ">\nUint16 a" (fun _ => none) '<' = .error .valueError) ∧
    ((legacyCompile "Uint16 a" (fun _ => none) '<').map
        (fun r => (r.byte_order, r.fmt)) = .ok ('<', "<H")) :=
  ⟨rfl, rfl, rfl, rfl⟩

/-! ## Counterexamples to the claims as originally stated -/

/-- C1's original statement fails on the codec of `"bool flag"`: the
buffer `[2]` has the compiled length, unpacks to `True`, and packs back to
`[1]`, not `[2]`. -/
theorem c1_roundtrip_counterexample :
    (compileString "bool flag" (fun _ => none)).map
      (fun r => (sizeFields (r.format.map (fun kv => kv.2)),
                 r.unpack [2], r.pack [("flag", Value.vbool true)])) =
      .ok (1, .ok [("flag", Value.vbool true)], .ok [1]) ∧
    ([1] : List Nat) ≠ [2] :=
  ⟨rfl, by decide⟩

/-- C3's original statement fails on the codec of `"Uint32[2] a"`: the
field holds one dict key but two struct values, so a mapping giving every
required field an in-range value still cannot pack — the value count check
fails. -/
theorem c3_map_roundtrip_counterexample :
    (compileString "Uint32[2] a\nUint32 b" (fun _ => none)).map
      (fun r => (reqKeys r, r.pack [("a", Value.vint 1), ("b", Value.vint 2)])) =
      .ok (["a", "b"], .error .arityMismatch) := rfl

/-- C5's original statement fails on the codec of `"options[6] options"`
under `envC5`: the encode hook returns two bytes for the six-byte field,
yet `pack` succeeds, zero-padding them to six bytes. -/
theorem c5_hook_width_counterexample :
    (compileString "options[6] options" envC5).map
      (fun r => r.pack [("options", Value.vbytes [])]) =
      .ok (.ok [65, 66, 0, 0, 0, 0]) ∧
    ([65, 66] : List Nat).length ≠ 6 :=
  ⟨rfl, by decide⟩

/-! ## Witnesses: each hypothesis-bearing claim theorem at a concrete
input -/

theorem c1_roundtrip_witness :
    ∃ m, readerBool.unpack [1] = .ok m ∧ readerBool.pack m = .ok [1] :=
  c1_roundtrip_amended readerBool [1] (by decide) (by decide) (by decide) (by decide)
    (fun k v => rfl)

theorem c3_map_roundtrip_witness :
    ∃ bs m2, readerBool.pack [("flag", Value.vbool true)] = .ok bs ∧
      readerBool.unpack bs = .ok m2 ∧
      ∀ k, lookupV m2 k = lookupV [("flag", Value.vbool true)] k :=
  c3_map_roundtrip_amended readerBool [("flag", Value.vbool true)] (by decide) (by decide)
    (fun k f hkf hx => by
      have he := List.mem_singleton.1 hkf
      have hk : k = "flag" := congrArg Prod.fst he
      have hf : f = ⟨none, '?'⟩ := congrArg Prod.snd he
      subst hk
      subst hf
      exact ⟨Value.vbool true, rfl, by decide⟩)
    (fun kv hkv => rfl)

theorem c5_custom_field_witness :
    (∃ m, readerC5.unpack [1, 2, 3, 4, 5, 6] = .ok m ∧
        lookupV m "options" = some (Value.vbytes [1, 2, 3, 4, 5, 6])) ∧
    (∃ out, readerC5.pack [("options", Value.vbytes [])] = .ok out ∧
        out.length = 6 ∧ (out.drop 0).take 6 = padTo 6 [65, 66]) :=
  ⟨(c5_custom_field_amended readerC5 [] [] "options" 6 rfl (by decide)).1
      [1, 2, 3, 4, 5, 6] (by decide),
   (c5_custom_field_amended readerC5 [] [] "options" 6 rfl (by decide)).2
      [("options", Value.vbytes [])] (Value.vbytes []) [65, 66]
      (by decide) rfl rfl
      (fun k2 f2 h2 hx2 hne => by
        have he := List.mem_singleton.1 h2
        exact absurd (congrArg Prod.fst he) hne)⟩

theorem c6_length_enforcement_witness :
    readerBool.unpack [1, 2] = .error .lengthMismatch ∧
    ∃ m, readerBool.unpack [1] = .ok m :=
  ⟨(c6_length_enforcement readerBool [1, 2]).1 (by decide),
   (c6_length_enforcement readerBool [1]).2 (by decide)⟩

theorem c7_missing_field_witness :
    (∃ k2, readerBool.pack [] = .error (.missingField k2)) ∧
    (∀ k2, readerBool.pack [("flag", Value.vbool true)] ≠ .error (.missingField k2)) :=
  ⟨(c7_missing_field readerBool []).1 ⟨"flag", by decide, by decide⟩,
   (c7_missing_field readerBool [("flag", Value.vbool true)]).2 (by decide)⟩

theorem c8_padding_omission_witness :
    (∀ k ∈ ([("flag", Value.vbool true)] : List (String × Value)).map (fun kv => kv.1),
      isPadName k = false) ∧
    readerPad.pack ([("padding1", Value.vint 9), ("flag", Value.vbool true)].filter
        (fun kv => !isPadName kv.1)) =
      readerPad.pack [("padding1", Value.vint 9), ("flag", Value.vbool true)] :=
  ⟨(c8_padding_omission readerPad).1 [0, 1] [("flag", Value.vbool true)] rfl,
   (c8_padding_omission readerPad).2 [("padding1", Value.vint 9), ("flag", Value.vbool true)]⟩

theorem c9_offset_order_stability_witness :
    fromOffsetsCore "<\n" [(4, "Uint32 b"), (0, "Uint32 a")] =
      fromOffsetsCore "<\n" [(0, "Uint32 a"), (4, "Uint32 b")] :=
  c9_offset_order_stability "<\n" [(4, "Uint32 b"), (0, "Uint32 a")]
    [(0, "Uint32 a"), (4, "Uint32 b")] (by decide) (by decide)

theorem c10_extra_keys_ignored_witness :
    readerBool.pack ([("flag", Value.vbool true)] ++ [("other", Value.vint 3)]) =
      readerBool.pack [("flag", Value.vbool true)] :=
  c10_extra_keys_ignored readerBool [("flag", Value.vbool true)]
    [("other", Value.vint 3)] (by decide)

end Cgrr
